import Mathlib

set_option maxHeartbeats 1000000

/-!
Shallow embedding of the `alloc-checked` collections layer: the fallible
growable array (`src/vec.rs`), the fallible double-ended queue
(`src/vec_deque.rs`) and the fallible-clone contract (`src/try_clone.rs`).

The wrappers in `src/` delegate capacity work to the inner standard
containers (`try_reserve`, `try_with_capacity_in`, the ring buffer); those
inner parts are not in the repository and are modelled from the spec, as
noted on each definition. Mutating `&mut self` methods are modelled as
functions returning the new container state paired with an optional typed
error, so that the post-failure state is observable.
-/

/-- The injected allocator capability: a pure predicate saying whether a
request for a block of `n` element slots succeeds. -/
structure Alloc where
  canAlloc : Nat → Bool

/-- An allocator that never refuses a request (unlimited budget). -/
def Alloc.unlimited : Alloc := ⟨fun _ => true⟩

/-- An allocator that grants blocks of at most `k` element slots. -/
def Alloc.cappedAt (k : Nat) : Alloc := ⟨fun n => decide (n ≤ k)⟩

/-- The typed allocation-failure error (`TryReserveError`), carrying the
size class (in element slots) that could not be satisfied. -/
inductive TryReserveError where
  | allocError (size : Nat)
deriving DecidableEq, Repr

/-- The fallible growable array `Vec<T, A>` of `src/vec.rs`: contiguous
`data` (the occupied prefix, in order), an allocated-slot count `cap`, and
the owned allocator instance. -/
structure Vec (α : Type) where
  data : List α
  cap : Nat
  alloc : Alloc

/-- `Vec::len`. -/
def Vec.len (v : Vec α) : Nat := v.data.length

/-- `Vec::capacity`. -/
def Vec.capacity (v : Vec α) : Nat := v.cap

/-- `Vec::new_in(alloc)`: zero length, zero capacity, no allocation. -/
def Vec.new_in (a : Alloc) : Vec α := ⟨[], 0, a⟩

/-- Modelled from the spec: the inner `Vec::try_reserve` that
`Vec::reserve` (src/vec.rs:32-34) delegates to. If the spare capacity
already covers `additional`, nothing happens; otherwise an amortized new
capacity (at minimum the requested total `len + additional`, rounded up by
doubling the prior capacity) is requested from the allocator. A failed
growth attempt leaves capacity and length exactly as before and returns
the typed error carrying the size class that could not be satisfied. -/
def Vec.tryReserve (v : Vec α) (additional : Nat) : Vec α × Option TryReserveError :=
  if v.len + additional ≤ v.cap then (v, none)
  else if v.alloc.canAlloc (max (v.cap * 2) (v.len + additional)) then
    ({ v with cap := max (v.cap * 2) (v.len + additional) }, none)
  else (v, some (.allocError (max (v.cap * 2) (v.len + additional))))

/-- Modelled from the spec: `Vec::try_with_capacity_in(capacity, alloc)`
used by `Vec::with_capacity_in` (src/vec.rs:37-41): one allocation sized
for exactly `n` elements (no allocation at all for `n = 0`); on refusal
no container is returned. -/
def Vec.with_capacity_in (n : Nat) (a : Alloc) : Except TryReserveError (Vec α) :=
  if n = 0 then .ok ⟨[], 0, a⟩
  else if a.canAlloc n then .ok ⟨[], n, a⟩
  else .error (.allocError n)

/-- `Vec::push` (src/vec.rs:44-51): `reserve(1)`, then the raw
`unsafe_push` writes the value into slot `length` and increments length. -/
def Vec.push (v : Vec α) (x : α) : Vec α × Option TryReserveError :=
  match v.tryReserve 1 with
  | (v', none) => ({ v' with data := v'.data ++ [x] }, none)
  | (v', some e) => (v', some e)

/-- The per-element fallback loop of `Vec::extend` (src/vec.rs:77-79):
`for value in iter { self.push(value)?; }`. On the first failing push the
loop stops, keeping the elements already pushed. -/
def Vec.pushAll (v : Vec α) : List α → Vec α × Option TryReserveError
  | [] => (v, none)
  | x :: xs =>
    match v.push x with
    | (v', none) => v'.pushAll xs
    | (v', some e) => (v', some e)

/-- An iterator over a known finite element sequence, together with the
lower bound its `size_hint` reports (which may under- or over-state the
true element count). -/
structure HintedIter (α : Type) where
  items : List α
  lowerBound : Nat

/-- `Vec::extend` (src/vec.rs:61-81): reserve the size-hint lower bound,
write up to that many elements raw (returning early if the iterator runs
dry), then push the remaining elements one by one. -/
def Vec.extend (v : Vec α) (it : HintedIter α) : Vec α × Option TryReserveError :=
  match v.tryReserve it.lowerBound with
  | (v', some e) => (v', some e)
  | (v', none) =>
    Vec.pushAll { v' with data := v'.data ++ it.items.take it.lowerBound }
      (it.items.drop it.lowerBound)

/-- `Vec::extend_from_slice` (src/vec.rs:153-161): reserve the slice's
length, then duplicate the slice's elements into the new slots. -/
def Vec.extend_from_slice (v : Vec α) (s : List α) : Vec α × Option TryReserveError :=
  match v.tryReserve s.length with
  | (v', none) => ({ v' with data := v'.data ++ s }, none)
  | (v', some e) => (v', some e)

/-- `Vec::extend_with` (src/vec.rs:164-176): reserve `additional`, then
write `additional` clones of `value` and set the new length. -/
def Vec.extend_with (v : Vec α) (additional : Nat) (x : α) : Vec α × Option TryReserveError :=
  match v.tryReserve additional with
  | (v', none) => ({ v' with data := v'.data ++ List.replicate additional x }, none)
  | (v', some e) => (v', some e)

/-- `Vec::truncate` (src/vec.rs:124-126): drop elements past `new_len`;
no-op when `new_len ≥ len`; capacity unchanged. -/
def Vec.truncate (v : Vec α) (newLen : Nat) : Vec α :=
  { v with data := v.data.take newLen }

/-- `Vec::clear` (src/vec.rs:119-121). -/
def Vec.clear (v : Vec α) : Vec α := { v with data := [] }

/-- `Vec::resize` (src/vec.rs:179-187): grow via `extend_with`, or
truncate. -/
def Vec.resize (v : Vec α) (newLen : Nat) (x : α) : Vec α × Option TryReserveError :=
  if v.len < newLen then v.extend_with (newLen - v.len) x
  else (v.truncate newLen, none)

/-- `Vec::resize_with` (src/vec.rs:129-148): grow by filling each new slot
from the producer (modelled as a function of the slot index), or
truncate. -/
def Vec.resize_with (v : Vec α) (newLen : Nat) (f : Nat → α) : Vec α × Option TryReserveError :=
  if v.len < newLen then
    match v.tryReserve (newLen - v.len) with
    | (v', none) =>
      ({ v' with data := v'.data ++ (List.range (newLen - v.len)).map (fun i => f (v.len + i)) }, none)
    | (v', some e) => (v', some e)
  else (v.truncate newLen, none)

/-- `TryClone for Vec` (src/vec.rs:190-198): allocate exactly `len`
capacity in a duplicated allocator, then `extend_from_slice` the
contents. -/
def Vec.try_clone (v : Vec α) : Except TryReserveError (Vec α) :=
  match Vec.with_capacity_in v.len v.alloc with
  | .error e => .error e
  | .ok c =>
    match c.extend_from_slice v.data with
    | (c', none) => .ok c'
    | (_, some e) => .error e

/-- The default `TryClone::try_clone_from` (src/try_clone.rs:6-9):
`*self = source.try_clone()?` — build a fresh duplicate first and replace
`self` only on success. -/
def Vec.try_clone_from (self source : Vec α) : Vec α × Option TryReserveError :=
  match source.try_clone with
  | .ok c => (c, none)
  | .error e => (self, some e)

/-- The fallible double-ended queue `VecDeque<T, A>` of `src/vec_deque.rs`.
Modelled from the spec: the inner ring buffer is a physical slot array
`buf` (its length is the capacity; unoccupied slots hold junk values), a
`head` offset, a logical `len`, and the owned allocator; the occupied
logical elements are the `len` elements starting at the head offset,
wrapping modulo the buffer capacity. -/
structure VecDeque (α : Type) where
  buf : List α
  head : Nat
  len : Nat
  alloc : Alloc

/-- The physical slot of logical index `i`: `(head + i) mod capacity`. -/
def VecDeque.phys (d : VecDeque α) (i : Nat) : Nat :=
  (d.head + i) % d.buf.length

/-- The logical front-to-back element sequence of the ring. -/
def VecDeque.toList [Inhabited α] (d : VecDeque α) : List α :=
  (List.range d.len).map (fun i => d.buf.getD (d.phys i) default)

/-- `VecDeque::capacity`. -/
def VecDeque.capacity (d : VecDeque α) : Nat := d.buf.length

/-- `VecDeque::new_in(alloc)` (src/vec_deque.rs:15-19). -/
def VecDeque.new_in (a : Alloc) : VecDeque α := ⟨[], 0, 0, a⟩

/-- `VecDeque::with_capacity_in` (src/vec_deque.rs:22-24): one allocation
sized for exactly `n` elements via `Vec::with_capacity_in`, the resulting
buffer converted into an empty ring with head 0. -/
def VecDeque.with_capacity_in [Inhabited α] (n : Nat) (a : Alloc) :
    Except TryReserveError (VecDeque α) :=
  match (Vec.with_capacity_in n a : Except TryReserveError (Vec α)) with
  | .ok v => .ok ⟨List.replicate v.cap default, 0, 0, a⟩
  | .error e => .error e

/-- Modelled from the spec: the inner `VecDeque::try_reserve` that
`VecDeque::reserve` (src/vec_deque.rs:83-85) delegates to. As for the
array: no-op when spare capacity suffices, otherwise an amortized growth
request; on success the relocation preserves the logical front-to-back
order (the grown ring starts contiguous at offset 0); on failure
capacity, head and length are exactly as before. -/
def VecDeque.tryReserve [Inhabited α] (d : VecDeque α) (additional : Nat) :
    VecDeque α × Option TryReserveError :=
  if d.len + additional ≤ d.buf.length then (d, none)
  else if d.alloc.canAlloc (max (d.buf.length * 2) (d.len + additional)) then
    (⟨d.toList ++
        List.replicate (max (d.buf.length * 2) (d.len + additional) - d.len) default,
      0, d.len, d.alloc⟩, none)
  else (d, some (.allocError (max (d.buf.length * 2) (d.len + additional))))

/-- The raw back write of the ring: store `x` at physical slot
`(head + len) mod capacity` and increment the length. -/
def VecDeque.pushBackRaw (d : VecDeque α) (x : α) : VecDeque α :=
  { d with buf := d.buf.set (d.phys d.len) x, len := d.len + 1 }

/-- `VecDeque::push_back` (src/vec_deque.rs:146-150): `reserve(1)`, then
write at the position immediately after the tail, wrapping. -/
def VecDeque.push_back [Inhabited α] (d : VecDeque α) (x : α) :
    VecDeque α × Option TryReserveError :=
  match d.tryReserve 1 with
  | (d', none) => (d'.pushBackRaw x, none)
  | (d', some e) => (d', some e)

/-- `VecDeque::push_front` (src/vec_deque.rs:139-143): `reserve(1)`, then
write at the position immediately before the head, wrapping, and move the
head there. -/
def VecDeque.push_front [Inhabited α] (d : VecDeque α) (x : α) :
    VecDeque α × Option TryReserveError :=
  match d.tryReserve 1 with
  | (d', none) =>
    let h := (d'.head + (d'.buf.length - 1)) % d'.buf.length
    ({ d' with buf := d'.buf.set h x, head := h, len := d'.len + 1 }, none)
  | (d', some e) => (d', some e)

/-- `VecDeque::pop_front` (src/vec_deque.rs:129-131): remove and return
the front element, or `None` if empty; never fails. -/
def VecDeque.pop_front [Inhabited α] (d : VecDeque α) : Option α × VecDeque α :=
  if d.len = 0 then (none, d)
  else (some (d.buf.getD d.head default),
        { d with head := (d.head + 1) % d.buf.length, len := d.len - 1 })

/-- `VecDeque::pop_back` (src/vec_deque.rs:134-136): remove and return
the back element, or `None` if empty; never fails. -/
def VecDeque.pop_back [Inhabited α] (d : VecDeque α) : Option α × VecDeque α :=
  if d.len = 0 then (none, d)
  else (some (d.buf.getD (d.phys (d.len - 1)) default), { d with len := d.len - 1 })

/-- `VecDeque::get` (src/vec_deque.rs:27-29): logical-to-physical index
translation; out-of-range returns `None`. -/
def VecDeque.get [Inhabited α] (d : VecDeque α) (i : Nat) : Option α :=
  if i < d.len then some (d.buf.getD (d.phys i) default) else none

/-- `VecDeque::get_mut` (src/vec_deque.rs:32-34): same index translation
and range check as `get`, yielding the slot for mutation. -/
def VecDeque.get_mut [Inhabited α] (d : VecDeque α) (i : Nat) : Option α :=
  d.get i

/-- `VecDeque::insert` (src/vec_deque.rs:153-157): `reserve(1)` first
(its failure surfaces as the typed error), then the inner insert, which
panics when `index > len` — modelled as `none`. Modelled from the spec:
the inner placement puts the value at the given logical index
(the shift-the-shorter-side strategy is a logical-order-preserving
relocation). -/
def VecDeque.insert [Inhabited α] (d : VecDeque α) (index : Nat) (x : α) :
    Option (VecDeque α × Option TryReserveError) :=
  match d.tryReserve 1 with
  | (d', none) =>
    if index ≤ d'.len then
      some (⟨(d'.toList.take index ++ x :: d'.toList.drop index) ++
               List.replicate (d'.buf.length - (d'.len + 1)) default,
             0, d'.len + 1, d'.alloc⟩, none)
    else none
  | (d', some e) => some (d', some e)

/-- `VecDeque::remove` (src/vec_deque.rs:160-162): delete and return the
element at the logical index, or `None` (queue unchanged) when out of
range; never fails. Modelled from the spec: the gap closes preserving the
order of the remainder. -/
def VecDeque.remove [Inhabited α] (d : VecDeque α) (index : Nat) :
    Option α × VecDeque α :=
  if index < d.len then
    (some (d.toList.getD index default),
     ⟨d.toList.eraseIdx index ++ List.replicate (d.buf.length - (d.len - 1)) default,
      0, d.len - 1, d.alloc⟩)
  else (none, d)

/-- `VecDeque::append` (src/vec_deque.rs:165-169): reserve capacity in
`self` for `other`'s full length, then move `other`'s elements into
`self`'s back in order, leaving `other` empty; on reserve failure nothing
has been touched. -/
def VecDeque.append [Inhabited α] (self other : VecDeque α) :
    (VecDeque α × VecDeque α) × Option TryReserveError :=
  match self.tryReserve other.len with
  | (s, none) => ((other.toList.foldl VecDeque.pushBackRaw s, { other with len := 0 }), none)
  | (s, some e) => ((s, other), some e)

/-- `VecDeque::make_contiguous` (src/vec_deque.rs:172-174): physically
rotate the ring so the logical window starts at offset 0, and return it
as a flat slice. -/
def VecDeque.make_contiguous [Inhabited α] (d : VecDeque α) : List α × VecDeque α :=
  (d.toList, ⟨d.toList ++ List.replicate (d.buf.length - d.len) default, 0, d.len, d.alloc⟩)

/-- `VecDeque::clear` (src/vec_deque.rs:96-98). -/
def VecDeque.clear (d : VecDeque α) : VecDeque α := { d with len := 0 }

/-- `VecDeque::drain` (src/vec_deque.rs:88-93): removes and yields the
elements in the logical index range `i..j`; the remaining elements close
the gap, so the length decreases by exactly the drained count, and the
removal is committed regardless of how much of the yielded sequence is
consumed. The inner drain panics on an invalid range (start past end, or
end past the length) — modelled as `none`. Modelled from the spec: the
gap-close is a logical-order-preserving relocation; capacity is kept. -/
def VecDeque.drain [Inhabited α] (d : VecDeque α) (i j : Nat) :
    Option (List α × VecDeque α) :=
  if i ≤ j ∧ j ≤ d.len then
    some ((d.toList.drop i).take (j - i),
      ⟨(d.toList.take i ++ d.toList.drop j) ++
         List.replicate (d.buf.length - (d.len - (j - i))) default,
       0, d.len - (j - i), d.alloc⟩)
  else none

/-- The conversion `From<Vec<T, A>> for VecDeque<T, A>`
(src/vec_deque.rs:187-193): the array's buffer is reused as the ring's
backing buffer, the logical window starting at physical offset 0. -/
def VecDeque.ofVec [Inhabited α] (v : Vec α) : VecDeque α :=
  ⟨v.data ++ List.replicate (v.cap - v.data.length) default, 0, v.data.length, v.alloc⟩

/-- The infallible `Extend` of the inner deque used by `try_clone`
(src/vec_deque.rs:182): appends each element at the back; the capacity
reserved beforehand always suffices in that use, so no growth branch is
ever taken there. -/
def VecDeque.extendInfallible (d : VecDeque α) (xs : List α) : VecDeque α :=
  xs.foldl VecDeque.pushBackRaw d

/-- `TryClone for VecDeque` (src/vec_deque.rs:177-185): allocate exactly
`len` capacity in a duplicated allocator, then duplicate the elements in
logical order. -/
def VecDeque.try_clone [Inhabited α] (d : VecDeque α) : Except TryReserveError (VecDeque α) :=
  match (VecDeque.with_capacity_in d.len d.alloc : Except TryReserveError (VecDeque α)) with
  | .ok c => .ok (c.extendInfallible d.toList)
  | .error e => .error e

/-- The default `TryClone::try_clone_from` (src/try_clone.rs:6-9)
instantiated at the deque. -/
def VecDeque.try_clone_from [Inhabited α] (self source : VecDeque α) :
    VecDeque α × Option TryReserveError :=
  match source.try_clone with
  | .ok c => (c, none)
  | .error e => (self, some e)

/-- The structural invariant of the growable array: `length ≤ capacity`. -/
def Vec.Inv (v : Vec α) : Prop := v.data.length ≤ v.cap

/-- The structural invariant of the ring: `length ≤ capacity`, and the
head offset lies inside the buffer (at 0 when no buffer is allocated). -/
def VecDeque.Inv (d : VecDeque α) : Prop :=
  d.len ≤ d.buf.length ∧ (d.head < d.buf.length ∨ (d.buf.length = 0 ∧ d.head = 0))

/-- The operation language of the queue refinement check: the mutating
operations a caller can run against the double-ended queue. -/
inductive DOp (α : Type) where
  | pushF (x : α)
  | pushB (x : α)
  | popF
  | popB
  | ins (i : Nat) (x : α)
  | rem (i : Nat)

/-- One step of the queue: the state after running the operation
(`none` when the operation faults, i.e. `insert` past the end). -/
def dequeStep [Inhabited α] (d : VecDeque α) : DOp α → Option (VecDeque α)
  | .pushF x => some (d.push_front x).1
  | .pushB x => some (d.push_back x).1
  | .popF => some d.pop_front.2
  | .popB => some d.pop_back.2
  | .ins i x => (d.insert i x).map Prod.fst
  | .rem i => some (d.remove i).2

/-- Run a whole operation sequence against the queue. -/
def dequeRun [Inhabited α] (d : VecDeque α) : List (DOp α) → Option (VecDeque α)
  | [] => some d
  | op :: ops =>
    match dequeStep d op with
    | some d' => dequeRun d' ops
    | none => none

/-- One step of the reference list-based model, following the spec's
words: push_front prepends, push_back appends, pops remove the
corresponding end, insert places the value at the given logical index
(faulting past the end), remove deletes the element at the index. -/
def listStep (l : List α) : DOp α → Option (List α)
  | .pushF x => some (x :: l)
  | .pushB x => some (l ++ [x])
  | .popF => some l.tail
  | .popB => some l.dropLast
  | .ins i x => if i ≤ l.length then some (l.take i ++ x :: l.drop i) else none
  | .rem i => some (l.eraseIdx i)

/-- Run a whole operation sequence against the reference list model. -/
def listRun (l : List α) : List (DOp α) → Option (List α)
  | [] => some l
  | op :: ops =>
    match listStep l op with
    | some l' => listRun l' ops
    | none => none

/-- Reading every index of a list back with `getD` reproduces the list. -/
theorem range_map_getD [Inhabited α] (L : List α) :
    (List.range L.length).map (fun i => L.getD i default) = L := by
  induction L with
  | nil => simp
  | cons x xs ih =>
    simp only [List.length_cons, List.range_succ_eq_map, List.map_cons, List.map_map]
    refine congrArg₂ List.cons (by simp) ?_
    rw [show ((fun i => (x :: xs).getD i default) ∘ Nat.succ) = (fun i => xs.getD i default) from funext (fun i => by simp)]
    exact ih

/-- A ring whose logical window is the contiguous block `L` at offset 0
reads back exactly `L`. -/
theorem toList_mkContig [Inhabited α] (L pad : List α) (a : Alloc) :
    (VecDeque.mk (L ++ pad) 0 L.length a).toList = L := by
  unfold VecDeque.toList VecDeque.phys
  have h : ∀ i ∈ List.range L.length,
      (L ++ pad).getD ((0 + i) % (L ++ pad).length) default = L.getD i default := by
    intro i hi
    rw [List.mem_range] at hi
    have hlen : i < (L ++ pad).length := by
      simp only [List.length_append]; omega
    rw [Nat.zero_add, Nat.mod_eq_of_lt hlen]
    simp [List.getD_eq_getElem?_getD, List.getElem?_append_left hi]
  rw [List.map_congr_left h, range_map_getD]

/-- The logical view always has exactly `len` elements. -/
theorem VecDeque.toList_length [Inhabited α] (d : VecDeque α) :
    d.toList.length = d.len := by
  simp [VecDeque.toList]

/-- Distinct logical indices below the capacity map to distinct physical
slots. -/
theorem VecDeque.phys_injective (d : VecDeque α) {i j : Nat}
    (hi : i < d.buf.length) (hj : j < d.buf.length) (hne : i ≠ j) :
    d.phys i ≠ d.phys j := by
  intro h
  unfold VecDeque.phys at h
  have h2 : i ≡ j [MOD d.buf.length] :=
    Nat.ModEq.add_left_cancel' d.head (h : d.head + i ≡ d.head + j [MOD d.buf.length])
  have : i % d.buf.length = j % d.buf.length := h2
  rw [Nat.mod_eq_of_lt hi, Nat.mod_eq_of_lt hj] at this
  exact hne this

/-- The raw back write appends at the end of the logical view. -/
theorem VecDeque.pushBackRaw_toList [Inhabited α] (d : VecDeque α) (x : α)
    (h : d.len < d.buf.length) :
    (d.pushBackRaw x).toList = d.toList ++ [x] := by
  have hc : 0 < d.buf.length := Nat.lt_of_le_of_lt (Nat.zero_le _) h
  unfold VecDeque.pushBackRaw VecDeque.toList VecDeque.phys
  simp only [List.length_set]
  rw [List.range_succ, List.map_append]
  congr 1
  · apply List.map_congr_left
    intro i hi
    rw [List.mem_range] at hi
    have hne : (d.head + d.len) % d.buf.length ≠ (d.head + i) % d.buf.length :=
      d.phys_injective h (by omega) (by omega)
    simp [List.getD_eq_getElem?_getD, List.getElem?_set_ne hne]
  · have hlt : (d.head + d.len) % d.buf.length < d.buf.length := Nat.mod_lt _ hc
    simp [List.getD_eq_getElem?_getD, List.getElem?_set_self hlt]

/-- The raw front write prepends to the logical view. -/
theorem VecDeque.pushFrontRaw_toList [Inhabited α] (d : VecDeque α) (x : α)
    (h : d.len < d.buf.length) :
    ({ d with buf := d.buf.set ((d.head + (d.buf.length - 1)) % d.buf.length) x,
              head := (d.head + (d.buf.length - 1)) % d.buf.length,
              len := d.len + 1 } : VecDeque α).toList = x :: d.toList := by
  have hc : 0 < d.buf.length := Nat.lt_of_le_of_lt (Nat.zero_le _) h
  have hlt : (d.head + (d.buf.length - 1)) % d.buf.length < d.buf.length := Nat.mod_lt _ hc
  unfold VecDeque.toList VecDeque.phys
  simp only [List.length_set, List.range_succ_eq_map, List.map_cons, List.map_map]
  congr 1
  · rw [Nat.add_zero, Nat.mod_eq_of_lt hlt]
    simp [List.getD_eq_getElem?_getD, List.getElem?_set_self hlt]
  · apply List.map_congr_left
    intro i hi
    rw [List.mem_range] at hi
    simp only [Function.comp]
    have key : ((d.head + (d.buf.length - 1)) % d.buf.length + Nat.succ i) % d.buf.length
        = (d.head + i) % d.buf.length := by
      rw [Nat.mod_add_mod]
      have : d.head + (d.buf.length - 1) + Nat.succ i = d.head + i + d.buf.length := by omega
      rw [this, Nat.add_mod_right]
    have hne : (d.head + (d.buf.length - 1)) % d.buf.length ≠ (d.head + i) % d.buf.length :=
      d.phys_injective (by omega) (by omega) (by omega)
    rw [key]
    simp [List.getD_eq_getElem?_getD, List.getElem?_set_ne hne]

/-- `pop_front` returns the logical head and leaves the tail. -/
theorem VecDeque.pop_front_toList [Inhabited α] (d : VecDeque α) (hInv : d.Inv) :
    d.pop_front.1 = d.toList.head? ∧ d.pop_front.2.toList = d.toList.tail := by
  rcases Nat.eq_zero_or_pos d.len with h0 | hpos
  · constructor <;> simp [VecDeque.pop_front, h0, VecDeque.toList]
  · obtain ⟨n, hn⟩ : ∃ n, d.len = n + 1 := ⟨d.len - 1, by omega⟩
    have hc : 0 < d.buf.length := by
      rcases hInv with ⟨h1, _⟩; omega
    have hhead : d.head < d.buf.length := by
      rcases hInv with ⟨_, h2 | ⟨h2, _⟩⟩
      · exact h2
      · omega
    have htl : d.toList
        = d.buf.getD d.head default
          :: (List.range n).map (fun i => d.buf.getD ((d.head + (i + 1)) % d.buf.length) default) := by
      unfold VecDeque.toList VecDeque.phys
      rw [hn, List.range_succ_eq_map, List.map_cons, List.map_map]
      refine congrArg₂ List.cons ?_ ?_
      · rw [Nat.add_zero, Nat.mod_eq_of_lt hhead]
      · apply List.map_congr_left
        intro i _
        simp [Function.comp, Nat.succ_eq_add_one]
    constructor
    · simp [VecDeque.pop_front, hn, htl]
    · simp only [VecDeque.pop_front, hn, if_neg (Nat.succ_ne_zero n)]
      rw [htl]
      unfold VecDeque.toList VecDeque.phys
      simp only [List.tail_cons, Nat.add_sub_cancel]
      apply List.map_congr_left
      intro i _
      rw [Nat.mod_add_mod]
      congr 2
      omega

/-- `pop_back` returns the logical last element and drops it. -/
theorem VecDeque.pop_back_toList [Inhabited α] (d : VecDeque α) :
    d.pop_back.1 = d.toList.getLast? ∧ d.pop_back.2.toList = d.toList.dropLast := by
  rcases Nat.eq_zero_or_pos d.len with h0 | hpos
  · constructor <;> simp [VecDeque.pop_back, h0, VecDeque.toList]
  · obtain ⟨n, hn⟩ : ∃ n, d.len = n + 1 := ⟨d.len - 1, by omega⟩
    have hsplit : d.toList
        = (List.range n).map (fun i => d.buf.getD (d.phys i) default)
          ++ [d.buf.getD (d.phys n) default] := by
      unfold VecDeque.toList
      rw [hn, List.range_succ, List.map_append, List.map_cons, List.map_nil]
    constructor
    · simp [VecDeque.pop_back, hn, hsplit, List.getLast?_concat]
    · simp only [VecDeque.pop_back, hn, if_neg (Nat.succ_ne_zero n)]
      rw [hsplit, List.dropLast_concat]
      unfold VecDeque.toList
      simp [Nat.add_sub_cancel, VecDeque.phys]

theorem VecDeque.pushBackRaw_len (d : VecDeque α) (x : α) :
    (d.pushBackRaw x).len = d.len + 1 := rfl

theorem VecDeque.pushBackRaw_bufLength (d : VecDeque α) (x : α) :
    (d.pushBackRaw x).buf.length = d.buf.length := List.length_set ..

theorem VecDeque.pushBackRaw_head (d : VecDeque α) (x : α) :
    (d.pushBackRaw x).head = d.head := rfl

theorem VecDeque.pushBackRaw_alloc (d : VecDeque α) (x : α) :
    (d.pushBackRaw x).alloc = d.alloc := rfl

/-- Variant of `toList_mkContig` with the length given by an equation. -/
theorem toList_mkContig' [Inhabited α] (L pad : List α) (a : Alloc) (n : Nat)
    (h : n = L.length) : (VecDeque.mk (L ++ pad) 0 n a).toList = L := by
  subst h; exact toList_mkContig L pad a

/-- Specification of the modelled inner `VecDeque::try_reserve`. -/
theorem VecDeque.tryReserve_spec [Inhabited α] (d : VecDeque α) (n : Nat) :
    ((d.tryReserve n).2 = none →
      (d.tryReserve n).1.toList = d.toList ∧
      (d.tryReserve n).1.len = d.len ∧
      (d.tryReserve n).1.alloc = d.alloc ∧
      d.len + n ≤ (d.tryReserve n).1.buf.length ∧
      d.buf.length ≤ (d.tryReserve n).1.buf.length ∧
      (d.Inv → (d.tryReserve n).1.Inv)) ∧
    (∀ e, (d.tryReserve n).2 = some e → (d.tryReserve n).1 = d) := by
  unfold VecDeque.tryReserve
  by_cases h1 : d.len + n ≤ d.buf.length
  · simp only [if_pos h1]
    exact ⟨fun _ => ⟨trivial, trivial, trivial, h1, Nat.le_refl _, id⟩, fun e he => trivial⟩
  · simp only [if_neg h1]
    by_cases h2 : d.alloc.canAlloc (max (d.buf.length * 2) (d.len + n)) = true
    · simp only [if_pos h2]
      refine ⟨fun _ => ⟨?_, trivial, trivial, ?_, ?_, fun _ => ?_⟩, fun e he => by simp at he⟩
      · exact toList_mkContig' _ _ _ _ (d.toList_length).symm
      · simp only [List.length_append, List.length_replicate, VecDeque.toList_length]
        omega
      · simp only [List.length_append, List.length_replicate, VecDeque.toList_length]
        omega
      · simp only [VecDeque.Inv, List.length_append, List.length_replicate,
          VecDeque.toList_length]
        exact ⟨by omega, Or.inl (by omega)⟩
    · simp only [if_neg h2]
      exact ⟨fun he => (by cases he), fun e he => trivial⟩

/-- Specification of `VecDeque::push_back`. -/
theorem VecDeque.push_back_spec [Inhabited α] (d : VecDeque α) (x : α) (hInv : d.Inv) :
    ((d.push_back x).2 = none →
      (d.push_back x).1.toList = d.toList ++ [x] ∧
      (d.push_back x).1.Inv ∧
      (d.push_back x).1.alloc = d.alloc ∧
      (d.push_back x).1.len = d.len + 1) ∧
    (∀ e, (d.push_back x).2 = some e → (d.push_back x).1 = d) := by
  have hres := d.tryReserve_spec 1
  unfold VecDeque.push_back
  cases hq : d.tryReserve 1 with
  | mk d' o =>
    simp only [hq] at hres
    cases o with
    | none =>
      obtain ⟨htl, hlen, hall, hcap, _, hinv⟩ := hres.1 rfl
      have hlt : d'.len < d'.buf.length := by omega
      refine ⟨fun _ => ⟨?_, ?_, ?_, ?_⟩, fun e he => (by simp at he)⟩
      · rw [d'.pushBackRaw_toList x hlt, htl]
      · have hI := hinv hInv
        refine ⟨?_, ?_⟩
        · rw [d'.pushBackRaw_len, d'.pushBackRaw_bufLength]; omega
        · rw [d'.pushBackRaw_head, d'.pushBackRaw_bufLength]
          rcases hI.2 with h | ⟨h, _⟩
          · exact Or.inl h
          · exact Or.inl (by omega)
      · rw [d'.pushBackRaw_alloc]; exact hall
      · rw [d'.pushBackRaw_len]; omega
    | some e =>
      refine ⟨fun he => (by simp at he), fun e' he' => ?_⟩
      have := hres.2 e rfl
      simpa using this

/-- Specification of `VecDeque::push_front`. -/
theorem VecDeque.push_front_spec [Inhabited α] (d : VecDeque α) (x : α) :
    ((d.push_front x).2 = none →
      (d.push_front x).1.toList = x :: d.toList ∧
      (d.push_front x).1.Inv ∧
      (d.push_front x).1.alloc = d.alloc ∧
      (d.push_front x).1.len = d.len + 1) ∧
    (∀ e, (d.push_front x).2 = some e → (d.push_front x).1 = d) := by
  have hres := d.tryReserve_spec 1
  unfold VecDeque.push_front
  cases hq : d.tryReserve 1 with
  | mk d' o =>
    simp only [hq] at hres
    cases o with
    | none =>
      obtain ⟨htl, hlen, hall, hcap, _, hinv⟩ := hres.1 rfl
      have hlt : d'.len < d'.buf.length := by omega
      have hc : 0 < d'.buf.length := by omega
      refine ⟨fun _ => ⟨?_, ?_, ?_, ?_⟩, fun e he => (by simp at he)⟩
      · rw [d'.pushFrontRaw_toList x hlt, htl]
      · refine ⟨?_, Or.inl ?_⟩
        · simp only [List.length_set]; omega
        · simp only [List.length_set]
          exact Nat.mod_lt _ hc
      · exact hall
      · simp only []; omega
    | some e =>
      refine ⟨fun he => (by simp at he), fun e' he' => ?_⟩
      simpa using hres.2 e rfl

/-- Pushing a block of elements raw, within reserved capacity, appends
them at the back of the logical view. -/
theorem VecDeque.foldl_pushBackRaw_spec [Inhabited α] (xs : List α) (d : VecDeque α)
    (h : d.len + xs.length ≤ d.buf.length) :
    (xs.foldl VecDeque.pushBackRaw d).toList = d.toList ++ xs ∧
    (xs.foldl VecDeque.pushBackRaw d).len = d.len + xs.length ∧
    (xs.foldl VecDeque.pushBackRaw d).buf.length = d.buf.length ∧
    (xs.foldl VecDeque.pushBackRaw d).head = d.head ∧
    (xs.foldl VecDeque.pushBackRaw d).alloc = d.alloc := by
  induction xs generalizing d with
  | nil => simp
  | cons y ys ih =>
    simp only [List.foldl_cons, List.length_cons] at h ⊢
    have hlt : d.len < d.buf.length := by omega
    have hstep : (d.pushBackRaw y).len + ys.length ≤ (d.pushBackRaw y).buf.length := by
      rw [d.pushBackRaw_len, d.pushBackRaw_bufLength]; omega
    obtain ⟨h1, h2, h3, h4, h5⟩ := ih (d.pushBackRaw y) hstep
    refine ⟨?_, ?_, ?_, ?_, ?_⟩
    · rw [h1, d.pushBackRaw_toList y hlt, List.append_assoc]; rfl
    · rw [h2, d.pushBackRaw_len]; omega
    · rw [h3, d.pushBackRaw_bufLength]
    · rw [h4, d.pushBackRaw_head]
    · rw [h5, d.pushBackRaw_alloc]

/-- Specification of `VecDeque::insert`: the reservation runs first; its
failure is the typed error; with capacity secured, an in-range index
places the value at that logical position and an out-of-range index is a
programming-error fault. -/
theorem VecDeque.insert_spec [Inhabited α] (d : VecDeque α) (i : Nat) (x : α) :
    (∀ e, (d.tryReserve 1).2 = some e → d.insert i x = some (d, some e)) ∧
    ((d.tryReserve 1).2 = none → i ≤ d.len →
      ∃ d', d.insert i x = some (d', none) ∧
        d'.toList = d.toList.take i ++ x :: d.toList.drop i ∧
        d'.Inv ∧ d'.alloc = d.alloc ∧ d'.len = d.len + 1) ∧
    ((d.tryReserve 1).2 = none → d.len < i → d.insert i x = none) := by
  have hres := d.tryReserve_spec 1
  unfold VecDeque.insert
  cases hq : d.tryReserve 1 with
  | mk d' o =>
    simp only [hq] at hres
    cases o with
    | none =>
      obtain ⟨htl, hlen, hall, hcap, _, _⟩ := hres.1 rfl
      dsimp only
      refine ⟨fun e he => (by simp at he), fun _ hi => ?_, fun _ hi => ?_⟩
      · rw [if_pos (by omega : i ≤ d'.len)]
        refine ⟨_, rfl, ?_, ?_, hall, by show d'.len + 1 = d.len + 1; omega⟩
        · rw [toList_mkContig' _ _ _ _ ?_, htl]
          simp only [List.length_append, List.length_cons, List.length_take,
            List.length_drop, VecDeque.toList_length]
          omega
        · constructor
          · simp only [List.length_append, List.length_cons, List.length_take,
              List.length_drop, List.length_replicate, VecDeque.toList_length]
            omega
          · left
            simp only [List.length_append, List.length_cons, List.length_take,
              List.length_drop, List.length_replicate, VecDeque.toList_length]
            omega
      · rw [if_neg (by omega : ¬ i ≤ d'.len)]
    | some e =>
      dsimp only
      refine ⟨fun e' he' => ?_, fun h => (by simp at h), fun h => (by simp at h)⟩
      simp only [Option.some.injEq] at he'
      subst he'
      rw [hres.2 e rfl]

/-- Specification of `VecDeque::remove`: in range it deletes and returns
the element at the logical index, out of range it returns `None` leaving
the queue unchanged; it never fails. -/
theorem VecDeque.remove_spec [Inhabited α] (d : VecDeque α) (i : Nat) (hInv : d.Inv) :
    (d.remove i).1 = d.toList[i]? ∧
    (d.remove i).2.toList = d.toList.eraseIdx i ∧
    (d.remove i).2.Inv ∧
    (d.remove i).2.alloc = d.alloc ∧
    (d.len ≤ i → (d.remove i).2 = d) := by
  unfold VecDeque.remove
  by_cases hi : i < d.len
  · rw [if_pos hi]
    have hitl : i < d.toList.length := by rw [VecDeque.toList_length]; omega
    refine ⟨?_, ?_, ?_, rfl, fun h => (by omega)⟩
    · simp [List.getD_eq_getElem?_getD, List.getElem?_eq_getElem hitl]
    · rw [toList_mkContig' _ _ _ _ ?_]
      rw [List.length_eraseIdx, if_pos hitl, VecDeque.toList_length]
    · constructor
      · simp only [List.length_append, List.length_replicate, List.length_eraseIdx,
          VecDeque.toList_length, if_pos hi]
        rcases hInv with ⟨h1, _⟩
        omega
      · left
        simp only [List.length_append, List.length_replicate, List.length_eraseIdx,
          VecDeque.toList_length, if_pos hi]
        rcases hInv with ⟨h1, _⟩
        omega
  · rw [if_neg hi]
    refine ⟨?_, ?_, hInv, rfl, fun _ => rfl⟩
    · rw [List.getElem?_eq_none]
      rw [VecDeque.toList_length]; omega
    · rw [List.eraseIdx_eq_self.2]
      rw [VecDeque.toList_length]; omega

/-- Specification of `VecDeque::make_contiguous`: the returned flat slice
is the logical front-to-back sequence, the rotated ring keeps the same
logical contents with the window now starting at physical offset 0. -/
theorem VecDeque.make_contiguous_spec [Inhabited α] (d : VecDeque α) :
    d.make_contiguous.1 = d.toList ∧
    d.make_contiguous.2.toList = d.toList ∧
    d.make_contiguous.2.head = 0 ∧
    d.make_contiguous.2.len = d.len ∧
    d.make_contiguous.2.alloc = d.alloc ∧
    (d.Inv → d.make_contiguous.2.Inv) := by
  refine ⟨rfl, ?_, rfl, rfl, rfl, fun hInv => ?_⟩
  · exact toList_mkContig' _ _ _ _ (d.toList_length).symm
  · rcases hInv with ⟨h1, _⟩
    constructor
    · simp only [VecDeque.make_contiguous, List.length_append, List.length_replicate,
        VecDeque.toList_length]
      omega
    · rcases Nat.eq_zero_or_pos d.buf.length with h0 | hpos
      · right
        refine ⟨?_, rfl⟩
        show (d.toList ++ List.replicate (d.buf.length - d.len) default).length = 0
        simp only [List.length_append, List.length_replicate, VecDeque.toList_length]
        omega
      · left
        show 0 < (d.toList ++ List.replicate (d.buf.length - d.len) default).length
        simp only [List.length_append, List.length_replicate, VecDeque.toList_length]
        omega

/-- Specification of `VecDeque::append`: on success all of `other`'s
elements move to the back of `self` in logical order and `other` is left
empty; on reserve failure both queues are exactly as before. -/
theorem VecDeque.append_spec [Inhabited α] (self other : VecDeque α)
    (hs : self.Inv) (ho : other.Inv) :
    ((self.append other).2 = none →
      (self.append other).1.1.toList = self.toList ++ other.toList ∧
      (self.append other).1.2.toList = [] ∧
      (self.append other).1.2.len = 0 ∧
      (self.append other).1.1.Inv ∧
      (self.append other).1.2.Inv ∧
      (self.append other).1.1.alloc = self.alloc) ∧
    (∀ e, (self.append other).2 = some e → (self.append other).1 = (self, other)) := by
  have hres := self.tryReserve_spec other.len
  unfold VecDeque.append
  cases hq : self.tryReserve other.len with
  | mk s o =>
    simp only [hq] at hres
    cases o with
    | none =>
      obtain ⟨htl, hlen, hall, hcap, _, hinv⟩ := hres.1 rfl
      have hfold := VecDeque.foldl_pushBackRaw_spec other.toList s
        (by rw [VecDeque.toList_length]; omega)
      obtain ⟨f1, f2, f3, f4, f5⟩ := hfold
      dsimp only
      refine ⟨fun _ => ⟨?_, ?_, rfl, ?_, ?_, ?_⟩, fun e he => (by simp at he)⟩
      · rw [f1, htl]
      · simp [VecDeque.toList]
      · constructor
        · rw [f2, f3, VecDeque.toList_length]; omega
        · rw [f4, f3]
          rcases (hinv hs).2 with h | ⟨h1, h2⟩
          · exact Or.inl h
          · exact Or.inr ⟨h1, h2⟩
      · rcases ho with ⟨h1, h2⟩
        exact ⟨Nat.zero_le _, h2⟩
      · rw [f5, hall]
    | some e =>
      dsimp only
      refine ⟨fun he => (by simp at he), fun e' he' => ?_⟩
      simp only [Option.some.injEq] at he'
      subst he'
      rw [hres.2 e rfl]

/-- Specification of `VecDeque::with_capacity_in`: succeeds exactly when
the single allocation of `n` slots does (trivially for `n = 0`), giving an
empty ring with exactly `n` slots. -/
theorem VecDeque.with_capacity_spec [Inhabited α] (n : Nat) (a : Alloc) :
    ((∃ c, (VecDeque.with_capacity_in n a : Except TryReserveError (VecDeque α)) = .ok c) ↔
      (n = 0 ∨ a.canAlloc n = true)) ∧
    (∀ c : VecDeque α, VecDeque.with_capacity_in n a = .ok c →
      c.toList = [] ∧ c.len = 0 ∧ c.head = 0 ∧ c.buf.length = n ∧ c.alloc = a ∧ c.Inv) := by
  unfold VecDeque.with_capacity_in Vec.with_capacity_in
  by_cases h0 : n = 0
  · subst h0
    simp only [if_pos rfl]
    refine ⟨⟨fun _ => Or.inl trivial, fun _ => ⟨_, rfl⟩⟩, fun c hc => ?_⟩
    injection hc with h
    subst h
    refine ⟨by simp [VecDeque.toList], rfl, rfl, by simp, rfl, ?_⟩
    exact ⟨by simp, Or.inr (by simp)⟩
  · simp only [if_neg h0]
    by_cases hA : a.canAlloc n = true
    · simp only [if_pos hA]
      refine ⟨⟨fun _ => Or.inr hA, fun _ => ⟨_, rfl⟩⟩, fun c hc => ?_⟩
      injection hc with h
      subst h
      refine ⟨by simp [VecDeque.toList], rfl, rfl, by simp, rfl, ?_⟩
      refine ⟨by simp, Or.inl ?_⟩
      simp only [List.length_replicate]
      omega
    · simp only [if_neg hA]
      refine ⟨⟨fun ⟨c, hc⟩ => (by simp at hc), fun h => ?_⟩, fun c hc => (by simp at hc)⟩
      rcases h with h | h
      · exact absurd h h0
      · exact absurd h hA

/-- `get` performs checked logical indexing into the front-to-back view. -/
theorem VecDeque.get_spec [Inhabited α] (d : VecDeque α) (i : Nat) :
    d.get i = d.toList[i]? := by
  unfold VecDeque.get VecDeque.toList
  by_cases hi : i < d.len
  · rw [if_pos hi, List.getElem?_map, List.getElem?_range hi]
    rfl
  · rw [if_neg hi, eq_comm, List.getElem?_eq_none]
    simp only [List.length_map, List.length_range]
    omega

/-- Specification of `TryClone for VecDeque`: succeeds exactly when the
single allocation of `len` slots does, producing a contiguous duplicate
with the same elements in the same logical order and exactly `len`
capacity. -/
theorem VecDeque.try_clone_spec [Inhabited α] (d : VecDeque α) :
    ((∃ c, d.try_clone = .ok c) ↔ (d.len = 0 ∨ d.alloc.canAlloc d.len = true)) ∧
    (∀ c, d.try_clone = .ok c →
      c.toList = d.toList ∧ c.len = d.len ∧ c.buf.length = d.len ∧
      c.head = 0 ∧ c.alloc = d.alloc ∧ c.Inv) := by
  have hw := VecDeque.with_capacity_spec (α := α) d.len d.alloc
  unfold VecDeque.try_clone VecDeque.extendInfallible
  cases hq : (VecDeque.with_capacity_in d.len d.alloc : Except TryReserveError (VecDeque α)) with
  | ok c0 =>
    obtain ⟨ht0, hl0, hh0, hb0, ha0, hI0⟩ := hw.2 c0 hq
    have hfold := VecDeque.foldl_pushBackRaw_spec d.toList c0
      (by rw [hl0, hb0, VecDeque.toList_length]; omega)
    obtain ⟨f1, f2, f3, f4, f5⟩ := hfold
    constructor
    · exact ⟨fun _ => (hw.1).1 ⟨c0, hq⟩, fun _ => ⟨_, rfl⟩⟩
    · intro c hc
      injection hc with h
      subst h
      have hll := d.toList_length
      refine ⟨?_, ?_, ?_, ?_, ?_, ?_⟩
      · rw [f1, ht0, List.nil_append]
      · omega
      · omega
      · rw [f4, hh0]
      · rw [f5, ha0]
      · refine ⟨by omega, ?_⟩
        rcases Nat.eq_zero_or_pos d.len with h | h
        · exact Or.inr ⟨by omega, by rw [f4, hh0]⟩
        · exact Or.inl (by omega)
  | error e =>
    constructor
    · constructor
      · rintro ⟨c, hc⟩
        simp at hc
      · intro h
        exfalso
        rcases (hw.1).2 h with ⟨c, hc⟩
        rw [hq] at hc
        cases hc
    · intro c hc
      simp at hc

/-- Specification of the modelled inner `Vec::try_reserve`: the stored
elements and allocator are never touched; success establishes the
requested headroom without shrinking; failure changes nothing and carries
the size class that could not be satisfied. -/
theorem Vec.tryReserve_contract (v : Vec α) (n : Nat) :
    (v.tryReserve n).1.data = v.data ∧
    (v.tryReserve n).1.alloc = v.alloc ∧
    ((v.tryReserve n).2 = none →
      v.data.length + n ≤ (v.tryReserve n).1.cap ∧ v.cap ≤ (v.tryReserve n).1.cap) ∧
    (∀ e, (v.tryReserve n).2 = some e → (v.tryReserve n).1 = v ∧
      e = .allocError (max (v.cap * 2) (v.data.length + n)) ∧
      v.alloc.canAlloc (max (v.cap * 2) (v.data.length + n)) = false) := by
  unfold Vec.tryReserve Vec.len
  by_cases h1 : v.data.length + n ≤ v.cap
  · simp only [if_pos h1]
    exact ⟨trivial, trivial, fun _ => ⟨h1, Nat.le_refl _⟩, fun e he => (by simp at he)⟩
  · simp only [if_neg h1]
    by_cases h2 : v.alloc.canAlloc (max (v.cap * 2) (v.data.length + n)) = true
    · simp only [if_pos h2]
      refine ⟨trivial, trivial, fun _ => ⟨?_, ?_⟩, fun e he => (by simp at he)⟩ <;> omega
    · simp only [if_neg h2]
      refine ⟨trivial, trivial, fun he => (by simp at he), fun e he => ?_⟩
      simp only [Option.some.injEq] at he
      subst he
      exact ⟨trivial, rfl, by simpa using h2⟩

/-- Specification of `Vec::push`: it fails exactly when `reserve(1)`
fails; on failure the array is exactly as before; on success the value
lands at the end with everything else unchanged. -/
theorem Vec.push_spec (v : Vec α) (x : α) :
    (((v.push x).2 = none) ↔ ((v.tryReserve 1).2 = none)) ∧
    ((v.push x).2 = none →
      (v.push x).1.data = v.data ++ [x] ∧
      (v.push x).1.alloc = v.alloc ∧
      v.data.length + 1 ≤ (v.push x).1.cap ∧
      v.cap ≤ (v.push x).1.cap) ∧
    (∀ e, (v.push x).2 = some e → (v.push x).1 = v ∧ (v.tryReserve 1).2 = some e) := by
  have hres := v.tryReserve_contract 1
  unfold Vec.push
  cases hq : v.tryReserve 1 with
  | mk v' o =>
    simp only [hq] at hres
    obtain ⟨hdata, hall, hok, hfail⟩ := hres
    cases o with
    | none =>
      obtain ⟨hc1, hc2⟩ := hok rfl
      dsimp only
      refine ⟨by simp, fun _ => ⟨?_, hall, ?_, ?_⟩, fun e he => (by simp at he)⟩
      · rw [hdata]
      · simpa using hc1
      · simpa using hc2
    | some e =>
      dsimp only
      refine ⟨by simp, fun he => (by simp at he), fun e' he' => ?_⟩
      simp only [Option.some.injEq] at he'
      subst he'
      exact ⟨(hfail e rfl).1, rfl⟩

/-- Within already-reserved headroom, a block of pushes succeeds, touches
no allocator, and leaves capacity unchanged. -/
theorem Vec.pushAll_headroom (xs : List α) (v : Vec α)
    (h : v.data.length + xs.length ≤ v.cap) :
    v.pushAll xs = (⟨v.data ++ xs, v.cap, v.alloc⟩, none) := by
  induction xs generalizing v with
  | nil => simp [Vec.pushAll]
  | cons y ys ih =>
    simp only [List.length_cons] at h
    have hfast : v.tryReserve 1 = (v, none) := by
      unfold Vec.tryReserve Vec.len
      rw [if_pos (by omega)]
    unfold Vec.pushAll Vec.push
    rw [hfast]
    have := ih ⟨v.data ++ [y], v.cap, v.alloc⟩ (by simp; omega)
    simpa [List.append_assoc] using this

/-- `pushAll` under an allocator that never refuses: appends everything. -/
theorem Vec.pushAll_unlimited (xs : List α) (v : Vec α)
    (hA : ∀ n, v.alloc.canAlloc n = true) :
    (v.pushAll xs).2 = none ∧ (v.pushAll xs).1.data = v.data ++ xs ∧
    (v.pushAll xs).1.alloc = v.alloc := by
  induction xs generalizing v with
  | nil => simp [Vec.pushAll]
  | cons y ys ih =>
    have hps := v.push_spec y
    have hsucc : (v.push y).2 = none := by
      rcases hq : (v.push y).2 with _ | e
      · rfl
      · have := (hps.2.2 e hq).2
        unfold Vec.tryReserve at this
        by_cases h1 : v.len + 1 ≤ v.cap
        · rw [if_pos h1] at this; cases this
        · rw [if_neg h1, if_pos (hA _)] at this; cases this
    obtain ⟨hd, ha, _, _⟩ := hps.2.1 hsucc
    unfold Vec.pushAll
    cases hq : v.push y with
    | mk v' o =>
      rw [hq] at hsucc hd ha
      subst hsucc
      have := ih v' (by rw [ha]; exact hA)
      refine ⟨this.1, ?_, ?_⟩
      · rw [this.2.1, hd, List.append_assoc]; rfl
      · rw [this.2.2, ha]
    
/-- Whatever the outcome, `pushAll` leaves the original elements in place
followed by a prefix of the block, and never touches the allocator. -/
theorem Vec.pushAll_progress (xs : List α) (v : Vec α) :
    ∃ k ≤ xs.length, (v.pushAll xs).1.data = v.data ++ xs.take k ∧
      (v.pushAll xs).1.alloc = v.alloc ∧
      ((v.pushAll xs).2 = none → (v.pushAll xs).1.data = v.data ++ xs) := by
  induction xs generalizing v with
  | nil => exact ⟨0, by simp, by simp [Vec.pushAll], by simp [Vec.pushAll], by simp [Vec.pushAll]⟩
  | cons y ys ih =>
    have hps := v.push_spec y
    unfold Vec.pushAll
    cases hq : v.push y with
    | mk v' o =>
      simp only [hq] at hps
      cases o with
      | none =>
        obtain ⟨hd, ha, _, _⟩ := hps.2.1 rfl
        obtain ⟨k, hk, h1, h2, h3⟩ := ih v'
        refine ⟨k + 1, by simpa using hk, ?_, ?_, ?_⟩
        · rw [h1, hd, List.take_succ_cons, List.append_assoc]; rfl
        · rw [h2, ha]
        · intro hnone
          rw [h3 hnone, hd, List.append_assoc]; rfl
      | some e =>
        obtain ⟨hv, _⟩ := hps.2.2 e rfl
        exact ⟨0, by simp, by simp [hv], by simp [hv], fun h => (by simp at h)⟩

/-- `pushAll` preserves the array's structural invariant. -/
theorem Vec.pushAll_inv (xs : List α) (v : Vec α) (hv : v.Inv) :
    ((v.pushAll xs).1).Inv := by
  induction xs generalizing v with
  | nil => simpa [Vec.pushAll]
  | cons y ys ih =>
    have hps := v.push_spec y
    unfold Vec.pushAll
    cases hq : v.push y with
    | mk v' o =>
      simp only [hq] at hps
      cases o with
      | none =>
        obtain ⟨hd, ha, hc1, hc2⟩ := hps.2.1 rfl
        exact ih v' (by unfold Vec.Inv; rw [hd]; simpa using hc1)
      | some e =>
        obtain ⟨hv', _⟩ := hps.2.2 e rfl
        simpa [hv'] using hv

/-- C1: the claim as stated is false for `extend`: with an allocator that
grants at most one slot, extending an empty array with the two-element
iterator `[10, 20]` (size hint 0) returns an allocation-failure error,
yet afterwards the array holds `[10]` — the first iterator element
remains appended, so length and contents are not as before the call. -/
theorem extend_partial_mutation_on_failure :
    ((Vec.new_in (Alloc.cappedAt 1) : Vec Nat).extend ⟨[10, 20], 0⟩).2.isSome = true ∧
    ((Vec.new_in (Alloc.cappedAt 1) : Vec Nat).extend ⟨[10, 20], 0⟩).1.data = [10] ∧
    (Vec.new_in (Alloc.cappedAt 1) : Vec Nat).data = [] := by
  refine ⟨rfl, rfl, rfl⟩

/-- On failure `extend_from_slice` changes nothing. -/
theorem Vec.extend_from_slice_fail (v : Vec α) (s : List α) (e : TryReserveError)
    (h : (v.extend_from_slice s).2 = some e) : (v.extend_from_slice s).1 = v := by
  have hres := v.tryReserve_contract s.length
  unfold Vec.extend_from_slice at h ⊢
  cases hq : v.tryReserve s.length with
  | mk v' o =>
    simp only [hq] at h hres ⊢
    cases o with
    | none => simp at h
    | some e' => exact (hres.2.2.2 e' rfl).1

/-- On failure `extend_with` changes nothing. -/
theorem Vec.extend_with_fail (v : Vec α) (n : Nat) (x : α) (e : TryReserveError)
    (h : (v.extend_with n x).2 = some e) : (v.extend_with n x).1 = v := by
  have hres := v.tryReserve_contract n
  unfold Vec.extend_with at h ⊢
  cases hq : v.tryReserve n with
  | mk v' o =>
    simp only [hq] at h hres ⊢
    cases o with
    | none => simp at h
    | some e' => exact (hres.2.2.2 e' rfl).1

/-- On failure `resize` changes nothing. -/
theorem Vec.resize_fail (v : Vec α) (n : Nat) (x : α) (e : TryReserveError)
    (h : (v.resize n x).2 = some e) : (v.resize n x).1 = v := by
  unfold Vec.resize at h ⊢
  by_cases hl : v.len < n
  · rw [if_pos hl] at h ⊢
    exact v.extend_with_fail _ _ _ h
  · rw [if_neg hl] at h
    simp at h

/-- On failure `resize_with` changes nothing. -/
theorem Vec.resize_with_fail (v : Vec α) (n : Nat) (f : Nat → α) (e : TryReserveError)
    (h : (v.resize_with n f).2 = some e) : (v.resize_with n f).1 = v := by
  have hres := v.tryReserve_contract (n - v.len)
  unfold Vec.resize_with at h ⊢
  by_cases hl : v.len < n
  · rw [if_pos hl] at h ⊢
    cases hq : v.tryReserve (n - v.len) with
    | mk v' o =>
      simp only [hq] at h hres ⊢
      cases o with
      | none => simp at h
      | some e' => exact (hres.2.2.2 e' rfl).1
  · rw [if_neg hl] at h
    simp at h

/-- On failure `extend` keeps the original elements followed by a prefix
of the iterable. -/
theorem Vec.extend_fail_keeps_front (v : Vec α) (it : HintedIter α) (e : TryReserveError)
    (h : (v.extend it).2 = some e) :
    ∃ k ≤ it.items.length, (v.extend it).1.data = v.data ++ it.items.take k ∧
      (v.extend it).1.alloc = v.alloc := by
  have hres := v.tryReserve_contract it.lowerBound
  unfold Vec.extend at h ⊢
  cases hq : v.tryReserve it.lowerBound with
  | mk v' o =>
    simp only [hq] at h hres ⊢
    cases o with
    | some e' =>
      have hv' : v' = v := (hres.2.2.2 e' rfl).1
      exact ⟨0, Nat.zero_le _, by simp [hv'], by simp [hv', hres.2.1]⟩
    | none =>
      have hdata : v'.data = v.data := hres.1
      have hall : v'.alloc = v.alloc := hres.2.1
      obtain ⟨k, hk, h1, h2, _⟩ :=
        Vec.pushAll_progress (it.items.drop it.lowerBound)
          ⟨v'.data ++ it.items.take it.lowerBound, v'.cap, v'.alloc⟩
      have hne : it.items.drop it.lowerBound ≠ [] := by
        intro hnil
        rw [hnil] at h
        simp [Vec.pushAll] at h
      have hlb : it.lowerBound < it.items.length := by
        by_contra hge
        exact hne (List.drop_eq_nil_of_le (by omega))
      refine ⟨it.lowerBound + k, ?_, ?_, ?_⟩
      · have := List.length_drop it.lowerBound it.items
        omega
      · rw [h1, hdata, List.take_add, List.append_assoc]
      · rw [h2, hall]

/-- C1 (amended): whenever an operation returns an allocation-failure
error, `push`, `extend_from_slice`, `extend_with`, `resize`,
`resize_with` and `reserve` leave the array (length, capacity, stored
elements, allocator) exactly as before the call; `extend`, however, may
leave the original elements followed by a prefix of the iterable's
elements already appended. -/
theorem no_partial_mutation_on_failure (v : Vec α) (x : α) (s : List α)
    (n : Nat) (f : Nat → α) (it : HintedIter α) :
    (∀ e, (v.push x).2 = some e → (v.push x).1 = v) ∧
    (∀ e, (v.extend_from_slice s).2 = some e → (v.extend_from_slice s).1 = v) ∧
    (∀ e, (v.extend_with n x).2 = some e → (v.extend_with n x).1 = v) ∧
    (∀ e, (v.resize n x).2 = some e → (v.resize n x).1 = v) ∧
    (∀ e, (v.resize_with n f).2 = some e → (v.resize_with n f).1 = v) ∧
    (∀ e, (v.tryReserve n).2 = some e → (v.tryReserve n).1 = v) ∧
    (∀ e, (v.extend it).2 = some e →
      ∃ k ≤ it.items.length, (v.extend it).1.data = v.data ++ it.items.take k ∧
        (v.extend it).1.alloc = v.alloc) :=
  ⟨fun e he => ((v.push_spec x).2.2 e he).1,
   fun e he => v.extend_from_slice_fail s e he,
   fun e he => v.extend_with_fail n x e he,
   fun e he => v.resize_fail n x e he,
   fun e he => v.resize_with_fail n f e he,
   fun e he => ((v.tryReserve_contract n).2.2.2 e he).1,
   fun e he => v.extend_fail_keeps_front it e he⟩

theorem no_partial_mutation_on_failure_witness :
    ((Vec.new_in (Alloc.cappedAt 0) : Vec Nat).push 7).2 = some (.allocError 1) ∧
    ((Vec.new_in (Alloc.cappedAt 0) : Vec Nat).push 7).1 = Vec.new_in (Alloc.cappedAt 0) :=
  ⟨rfl, (no_partial_mutation_on_failure (Vec.new_in (Alloc.cappedAt 0) : Vec Nat)
      7 [] 0 (fun _ => 0) ⟨[], 0⟩).1 (.allocError 1) rfl⟩

/-- C2: `push` fails exactly when the internal `reserve(1)` fails; on
failure the array is exactly as before (so the value is not retained);
on success the length grows by one, the pushed value sits at the last
index, and all previously stored elements are unchanged. -/
theorem push_iff_reserve (v : Vec α) (x : α) :
    (((v.push x).2 = none) ↔ ((v.tryReserve 1).2 = none)) ∧
    (∀ e, (v.push x).2 = some e → (v.push x).1 = v ∧ (v.tryReserve 1).2 = some e) ∧
    ((v.push x).2 = none →
      (v.push x).1.data = v.data ++ [x] ∧
      (v.push x).1.data.length = v.data.length + 1 ∧
      (v.push x).1.data.getLast? = some x ∧
      (v.push x).1.data.take v.data.length = v.data) := by
  have hps := v.push_spec x
  refine ⟨hps.1, hps.2.2, fun hok => ?_⟩
  obtain ⟨hd, _, _, _⟩ := hps.2.1 hok
  refine ⟨hd, ?_, ?_, ?_⟩
  · rw [hd]; simp
  · rw [hd]; simp [List.getLast?_concat]
  · rw [hd, List.take_left]

theorem push_iff_reserve_witness :
    (((Vec.mk [5] 1 Alloc.unlimited : Vec Nat).push 9).2 = none) ∧
    ((Vec.mk [5] 1 Alloc.unlimited : Vec Nat).push 9).1.data = [5, 9] :=
  ⟨rfl, ((push_iff_reserve (Vec.mk [5] 1 Alloc.unlimited : Vec Nat) 9).2.2 rfl).1⟩

/-- Under an allocator that never refuses, `Vec::try_reserve` always
succeeds. -/
theorem Vec.tryReserve_always_ok (v : Vec α) (n : Nat)
    (hA : ∀ m, v.alloc.canAlloc m = true) : (v.tryReserve n).2 = none := by
  unfold Vec.tryReserve
  by_cases h1 : v.len + n ≤ v.cap
  · rw [if_pos h1]
  · rw [if_neg h1, if_pos (hA _)]

/-- Under an allocator that never refuses, `VecDeque::try_reserve` always
succeeds. -/
theorem VecDeque.tryReserve_unlimited [Inhabited α] (d : VecDeque α) (n : Nat)
    (hA : ∀ m, d.alloc.canAlloc m = true) : (d.tryReserve n).2 = none := by
  unfold VecDeque.tryReserve
  by_cases h1 : d.len + n ≤ d.buf.length
  · rw [if_pos h1]
  · rw [if_neg h1, if_pos (hA _)]

/-- C3: a successful `reserve(additional)` establishes
`capacity ≥ length + additional` without touching the elements, and is
eager and exact: any block of at most `additional` subsequent pushes
succeeds with capacity unchanged (no second allocation); a failed
`reserve` leaves the array exactly as before and returns the typed error
carrying the size class that could not be satisfied. The deque's
`reserve` satisfies the same contract on its logical view. -/
theorem reserve_eager_exact [Inhabited β] (v : Vec α) (n : Nat) (d : VecDeque β) :
    ((v.tryReserve n).2 = none →
      v.data.length + n ≤ (v.tryReserve n).1.cap ∧
      (v.tryReserve n).1.data = v.data ∧
      (∀ xs : List α, xs.length ≤ n →
        ((v.tryReserve n).1.pushAll xs).2 = none ∧
        ((v.tryReserve n).1.pushAll xs).1.cap = (v.tryReserve n).1.cap ∧
        ((v.tryReserve n).1.pushAll xs).1.data = v.data ++ xs)) ∧
    (∀ e, (v.tryReserve n).2 = some e → (v.tryReserve n).1 = v ∧
      e = .allocError (max (v.cap * 2) (v.data.length + n)) ∧
      v.alloc.canAlloc (max (v.cap * 2) (v.data.length + n)) = false) ∧
    ((d.tryReserve n).2 = none →
      d.len + n ≤ (d.tryReserve n).1.buf.length ∧
      (d.tryReserve n).1.toList = d.toList) ∧
    (∀ e, (d.tryReserve n).2 = some e → (d.tryReserve n).1 = d) := by
  have hres := v.tryReserve_contract n
  have hdres := d.tryReserve_spec n
  refine ⟨fun hok => ?_, hres.2.2.2, fun hok => ?_, hdres.2⟩
  · obtain ⟨hc1, hc2⟩ := hres.2.2.1 hok
    refine ⟨hc1, hres.1, fun xs hxs => ?_⟩
    have hall := Vec.pushAll_headroom xs (v.tryReserve n).1 (by rw [hres.1]; omega)
    rw [hall]
    exact ⟨rfl, rfl, by rw [hres.1]⟩
  · obtain ⟨h1, _, _, h2, _, _⟩ := hdres.1 hok
    exact ⟨by omega, h1⟩

theorem reserve_eager_exact_witness :
    (((Vec.new_in (Alloc.cappedAt 4) : Vec Nat).tryReserve 3).1.pushAll [1, 2, 3]).2 = none ∧
    (((Vec.new_in (Alloc.cappedAt 4) : Vec Nat).tryReserve 3).1.pushAll [1, 2, 3]).1.cap
      = ((Vec.new_in (Alloc.cappedAt 4) : Vec Nat).tryReserve 3).1.cap ∧
    (((Vec.new_in (Alloc.cappedAt 4) : Vec Nat).tryReserve 3).1.pushAll [1, 2, 3]).1.data
      = [1, 2, 3] :=
  ((reserve_eager_exact (Vec.new_in (Alloc.cappedAt 4) : Vec Nat) 3
      (VecDeque.new_in Alloc.unlimited : VecDeque Nat)).1 rfl).2.2 [1, 2, 3] (by decide)

/-- C6: on success `extend` appends exactly the iterator's elements in
their original order, whatever the size hint; under an allocator that
never refuses it always succeeds with those contents (so under-, exact,
over- and zero hints produce the same result); when the hint overstates
the true count, `extend` succeeds exactly when the single up-front
reservation of the hint does — the excess capacity is unused. -/
theorem extend_hint_contract (v : Vec α) (it : HintedIter α) :
    ((∀ n, v.alloc.canAlloc n = true) →
      (v.extend it).2 = none ∧ (v.extend it).1.data = v.data ++ it.items) ∧
    ((v.extend it).2 = none → (v.extend it).1.data = v.data ++ it.items) ∧
    (it.items.length ≤ it.lowerBound →
      (((v.extend it).2 = none) ↔ ((v.tryReserve it.lowerBound).2 = none))) := by
  have hres := v.tryReserve_contract it.lowerBound
  unfold Vec.extend
  cases hq : v.tryReserve it.lowerBound with
  | mk v' o =>
    simp only [hq] at hres ⊢
    cases o with
    | none =>
      have hdata : v'.data = v.data := hres.1
      have hall : v'.alloc = v.alloc := hres.2.1
      obtain ⟨k, hk, h1, h2, h3⟩ :=
        Vec.pushAll_progress (it.items.drop it.lowerBound)
          ⟨v'.data ++ it.items.take it.lowerBound, v'.cap, v'.alloc⟩
      refine ⟨fun hA => ?_, fun hok => ?_, fun hover => ?_⟩
      · have hu := Vec.pushAll_unlimited (it.items.drop it.lowerBound)
          ⟨v'.data ++ it.items.take it.lowerBound, v'.cap, v'.alloc⟩
          (by simpa [hall] using hA)
        refine ⟨hu.1, ?_⟩
        rw [hu.2.1]
        simp only [hdata]
        rw [List.append_assoc, List.take_append_drop]
      · rw [h3 hok, hdata, List.append_assoc, List.take_append_drop]
      · constructor
        · intro _; rfl
        · intro _
          have hnil : it.items.drop it.lowerBound = [] :=
            List.drop_eq_nil_of_le hover
          rw [hnil]
          simp [Vec.pushAll]
    | some e =>
      refine ⟨fun hA => ?_, fun hok => (by simp at hok), fun hover => ?_⟩
      · exfalso
        have := v.tryReserve_always_ok it.lowerBound hA
        rw [hq] at this
        simp at this
      · constructor
        · intro h; simp at h
        · intro h; simp at h

theorem extend_hint_contract_witness :
    ((Vec.new_in Alloc.unlimited : Vec Nat).extend ⟨[1, 2, 3], 7⟩).2 = none ∧
    ((Vec.new_in Alloc.unlimited : Vec Nat).extend ⟨[1, 2, 3], 7⟩).1.data = [1, 2, 3] :=
  (extend_hint_contract (Vec.new_in Alloc.unlimited : Vec Nat) ⟨[1, 2, 3], 7⟩).1
    (fun _ => rfl)

/-- Specification of `TryClone for Vec`: succeeds exactly when the single
allocation of `len` slots does, producing a duplicate with the same
elements and exactly `len` capacity. -/
theorem Vec.try_clone_exact (v : Vec α) :
    ((∃ c, v.try_clone = .ok c) ↔
      (v.data.length = 0 ∨ v.alloc.canAlloc v.data.length = true)) ∧
    (∀ c, v.try_clone = .ok c →
      c.data = v.data ∧ c.cap = v.data.length ∧ c.alloc = v.alloc) := by
  unfold Vec.try_clone Vec.with_capacity_in Vec.extend_from_slice Vec.tryReserve Vec.len
  by_cases h0 : v.data.length = 0
  · rw [if_pos h0]
    simp only [List.length_nil, Nat.zero_add]
    simp only [if_pos (show v.data.length ≤ 0 by omega)]
    refine ⟨⟨fun _ => Or.inl h0, fun _ => ⟨_, rfl⟩⟩, fun c hc => ?_⟩
    injection hc with h
    subst h
    have : v.data = [] := List.eq_nil_of_length_eq_zero h0
    simp [this, h0]
  · rw [if_neg h0]
    by_cases hA : v.alloc.canAlloc v.data.length = true
    · rw [if_pos hA]
      simp only [List.length_nil, Nat.zero_add]
      simp only [if_pos (Nat.le_refl v.data.length)]
      refine ⟨⟨fun _ => Or.inr hA, fun _ => ⟨_, rfl⟩⟩, fun c hc => ?_⟩
      injection hc with h
      subst h
      simp
    · rw [if_neg hA]
      refine ⟨⟨fun ⟨c, hc⟩ => (by simp at hc), fun h => ?_⟩, fun c hc => (by simp at hc)⟩
      rcases h with h | h
      · exact absurd h h0
      · exact absurd h hA

/-- C4: on success `append` moves all of `other`'s elements to the back
of `self` in logical order and leaves `other` empty; on an
allocation-failure error both queues are exactly as before the call. -/
theorem append_atomic [Inhabited α] (self other : VecDeque α)
    (hs : self.Inv) (ho : other.Inv) :
    ((self.append other).2 = none →
      (self.append other).1.1.toList = self.toList ++ other.toList ∧
      (self.append other).1.2.toList = [] ∧
      (self.append other).1.2.len = 0) ∧
    (∀ e, (self.append other).2 = some e →
      (self.append other).1.1 = self ∧ (self.append other).1.2 = other) := by
  have h := VecDeque.append_spec self other hs ho
  refine ⟨fun hok => ?_, fun e he => ?_⟩
  · obtain ⟨h1, h2, h3, _, _, _⟩ := h.1 hok
    exact ⟨h1, h2, h3⟩
  · have hp := h.2 e he
    exact ⟨by rw [hp], by rw [hp]⟩

theorem append_atomic_witness :
    ((VecDeque.mk [1] 0 1 Alloc.unlimited : VecDeque Nat).append
        (VecDeque.mk [2, 3] 0 2 Alloc.unlimited)).2 = none ∧
    ((VecDeque.mk [1] 0 1 Alloc.unlimited : VecDeque Nat).append
        (VecDeque.mk [2, 3] 0 2 Alloc.unlimited)).1.1.toList = [1, 2, 3] ∧
    ((VecDeque.mk [1] 0 1 Alloc.unlimited : VecDeque Nat).append
        (VecDeque.mk [2, 3] 0 2 Alloc.unlimited)).1.2.len = 0 := by
  have h := (append_atomic (VecDeque.mk [1] 0 1 Alloc.unlimited : VecDeque Nat)
      (VecDeque.mk [2, 3] 0 2 Alloc.unlimited) (by constructor <;> simp)
      (by constructor <;> simp)).1 (by decide)
  exact ⟨by decide, by rw [h.1]; decide, h.2.2⟩

/-- C7: `try_clone` on the array and on the queue allocates exactly
`length` capacity, duplicates the elements in order, and fails exactly
when that allocation fails (the source, passed by value, is untouched);
the default `try_clone_from` replaces `self` only on success, keeping
`self`'s previous contents on failure. -/
theorem try_clone_contract [Inhabited β] (v : Vec α) (d : VecDeque β)
    (self source : Vec α) (self2 source2 : VecDeque β) :
    ((∃ c, v.try_clone = .ok c) ↔
      (v.data.length = 0 ∨ v.alloc.canAlloc v.data.length = true)) ∧
    (∀ c, v.try_clone = .ok c →
      c.data = v.data ∧ c.cap = v.data.length ∧ c.alloc = v.alloc) ∧
    ((∃ c, d.try_clone = .ok c) ↔
      (d.len = 0 ∨ d.alloc.canAlloc d.len = true)) ∧
    (∀ c, d.try_clone = .ok c →
      c.toList = d.toList ∧ c.buf.length = d.len ∧ c.alloc = d.alloc) ∧
    (∀ e, (self.try_clone_from source).2 = some e →
      (self.try_clone_from source).1 = self) ∧
    ((self.try_clone_from source).2 = none →
      (self.try_clone_from source).1.data = source.data) ∧
    (∀ e, (self2.try_clone_from source2).2 = some e →
      (self2.try_clone_from source2).1 = self2) ∧
    ((self2.try_clone_from source2).2 = none →
      (self2.try_clone_from source2).1.toList = source2.toList) := by
  have hv := v.try_clone_exact
  have hd := d.try_clone_spec
  refine ⟨hv.1, hv.2, hd.1, fun c hc => ?_, ?_, ?_, ?_, ?_⟩
  · obtain ⟨h1, _, h3, _, h5, _⟩ := hd.2 c hc
    exact ⟨h1, h3, h5⟩
  · intro e he
    unfold Vec.try_clone_from at he ⊢
    cases hq : source.try_clone with
    | ok c => simp [hq] at he
    | error e' => simp [hq]
  · intro hok
    unfold Vec.try_clone_from at hok ⊢
    cases hq : source.try_clone with
    | ok c =>
      simp only [hq]
      exact ((source.try_clone_exact).2 c hq).1
    | error e' => simp [hq] at hok
  · intro e he
    unfold VecDeque.try_clone_from at he ⊢
    cases hq : source2.try_clone with
    | ok c => simp [hq] at he
    | error e' => simp [hq]
  · intro hok
    unfold VecDeque.try_clone_from at hok ⊢
    cases hq : source2.try_clone with
    | ok c =>
      simp only [hq]
      exact ((source2.try_clone_spec).2 c hq).1
    | error e' => simp [hq] at hok

theorem try_clone_contract_witness :
    (Vec.mk [1, 2] 4 Alloc.unlimited : Vec Nat).try_clone
        = .ok (Vec.mk [1, 2] 2 Alloc.unlimited) ∧
    ((Vec.mk [1, 2] 4 Alloc.unlimited : Vec Nat).try_clone.map Vec.data
        = .ok [1, 2]) := by
  have h := (try_clone_contract (Vec.mk [1, 2] 4 Alloc.unlimited : Vec Nat)
      (VecDeque.new_in Alloc.unlimited : VecDeque Nat)
      (Vec.new_in Alloc.unlimited) (Vec.new_in Alloc.unlimited)
      (VecDeque.new_in Alloc.unlimited) (VecDeque.new_in Alloc.unlimited)).2.1
      (Vec.mk [1, 2] 2 Alloc.unlimited) rfl
  exact ⟨rfl, by rfl⟩

/-- C8: a queue built by back(1), front(2), back(3), front(4), back(5)
flattens to `[4, 2, 1, 3, 5]`; in general `make_contiguous` returns the
single slice of all `length` elements in logical front-to-back order,
and rotates the ring so the window starts at physical offset 0. -/
theorem make_contiguous_flat :
    ((((((VecDeque.new_in Alloc.unlimited : VecDeque Nat).push_back 1).1.push_front 2).1.push_back
        3).1.push_front 4).1.push_back 5).1.make_contiguous.1 = [4, 2, 1, 3, 5] ∧
    (∀ (d : VecDeque Nat), d.make_contiguous.1 = d.toList ∧
      d.make_contiguous.2.toList = d.toList ∧ d.make_contiguous.2.head = 0) := by
  refine ⟨by decide, fun d => ?_⟩
  have h := d.make_contiguous_spec
  exact ⟨h.1, h.2.1, h.2.2.1⟩

/-- C10: with capacity secured, `insert` past the end is a
programming-error fault (modelled as `none`), not a `None` result or a
typed error — the prior reservation may well have succeeded; by contrast
`get`/`get_mut` and `remove` return `None` for every out-of-range index,
`remove` leaving the queue unchanged. -/
theorem insert_out_of_range_panics [Inhabited α] (d : VecDeque α) (i : Nat) (x : α)
    (h : d.len < i) :
    ((d.tryReserve 1).2 = none → d.insert i x = none) ∧
    (∀ e, (d.tryReserve 1).2 = some e → d.insert i x = some (d, some e)) ∧
    d.get i = none ∧
    d.get_mut i = none ∧
    (d.remove i).1 = none ∧
    (d.remove i).2 = d := by
  have hins := d.insert_spec i x
  refine ⟨fun hok => hins.2.2 hok h, hins.1, ?_, ?_, ?_, ?_⟩
  · unfold VecDeque.get
    rw [if_neg (by omega)]
  · unfold VecDeque.get_mut VecDeque.get
    rw [if_neg (by omega)]
  · unfold VecDeque.remove
    rw [if_neg (by omega)]
  · unfold VecDeque.remove
    rw [if_neg (by omega)]

theorem insert_out_of_range_panics_witness :
    (VecDeque.mk [7] 0 1 Alloc.unlimited : VecDeque Nat).insert 2 9 = none ∧
    (VecDeque.mk [7] 0 1 Alloc.unlimited : VecDeque Nat).get 2 = none ∧
    ((VecDeque.mk [7] 0 1 Alloc.unlimited : VecDeque Nat).remove 2).1 = none := by
  have h := insert_out_of_range_panics (VecDeque.mk [7] 0 1 Alloc.unlimited : VecDeque Nat)
      2 9 (by decide)
  exact ⟨h.1 (by decide), h.2.2.1, h.2.2.2.2.1⟩

/-- Under an allocator that never refuses, `push_front` succeeds. -/
theorem VecDeque.push_front_unlimited [Inhabited α] (d : VecDeque α) (x : α)
    (hA : ∀ n, d.alloc.canAlloc n = true) : (d.push_front x).2 = none := by
  have h := d.tryReserve_unlimited 1 hA
  unfold VecDeque.push_front
  cases hq : d.tryReserve 1 with
  | mk d' o =>
    rw [hq] at h
    cases o with
    | none => rfl
    | some e => simp at h

/-- Under an allocator that never refuses, `push_back` succeeds. -/
theorem VecDeque.push_back_unlimited [Inhabited α] (d : VecDeque α) (x : α)
    (hA : ∀ n, d.alloc.canAlloc n = true) : (d.push_back x).2 = none := by
  have h := d.tryReserve_unlimited 1 hA
  unfold VecDeque.push_back
  cases hq : d.tryReserve 1 with
  | mk d' o =>
    rw [hq] at h
    cases o with
    | none => rfl
    | some e => simp at h

/-- `pop_front` preserves the invariant and the allocator. -/
theorem VecDeque.pop_front_inv [Inhabited α] (d : VecDeque α) (hInv : d.Inv) :
    d.pop_front.2.Inv ∧ d.pop_front.2.alloc = d.alloc := by
  unfold VecDeque.pop_front
  by_cases h0 : d.len = 0
  · rw [if_pos h0]; exact ⟨hInv, rfl⟩
  · rw [if_neg h0]
    rcases hInv with ⟨h1, _⟩
    have hc : 0 < d.buf.length := by omega
    refine ⟨⟨?_, Or.inl (Nat.mod_lt _ hc)⟩, rfl⟩
    show d.len - 1 ≤ d.buf.length
    omega

/-- `pop_back` preserves the invariant and the allocator. -/
theorem VecDeque.pop_back_inv [Inhabited α] (d : VecDeque α) (hInv : d.Inv) :
    d.pop_back.2.Inv ∧ d.pop_back.2.alloc = d.alloc := by
  unfold VecDeque.pop_back
  by_cases h0 : d.len = 0
  · rw [if_pos h0]; exact ⟨hInv, rfl⟩
  · rw [if_neg h0]
    rcases hInv with ⟨h1, h2⟩
    refine ⟨⟨?_, h2⟩, rfl⟩
    show d.len - 1 ≤ d.buf.length
    omega

/-- `extend_from_slice` preserves the array invariant. -/
theorem Vec.extend_from_slice_inv (v : Vec α) (s : List α) (hv : v.Inv) :
    ((v.extend_from_slice s).1).Inv := by
  have hres := v.tryReserve_contract s.length
  unfold Vec.extend_from_slice
  cases hq : v.tryReserve s.length with
  | mk v' o =>
    simp only [hq] at hres
    cases o with
    | none =>
      obtain ⟨hc1, _⟩ := hres.2.2.1 rfl
      show (v'.data ++ s).length ≤ v'.cap
      rw [List.length_append, hres.1]
      omega
    | some e =>
      have : v' = v := (hres.2.2.2 e rfl).1
      simpa [this] using hv

/-- `extend_with` preserves the array invariant. -/
theorem Vec.extend_with_inv (v : Vec α) (n : Nat) (x : α) (hv : v.Inv) :
    ((v.extend_with n x).1).Inv := by
  have hres := v.tryReserve_contract n
  unfold Vec.extend_with
  cases hq : v.tryReserve n with
  | mk v' o =>
    simp only [hq] at hres
    cases o with
    | none =>
      obtain ⟨hc1, _⟩ := hres.2.2.1 rfl
      show (v'.data ++ List.replicate n x).length ≤ v'.cap
      rw [List.length_append, hres.1, List.length_replicate]
      omega
    | some e =>
      have : v' = v := (hres.2.2.2 e rfl).1
      simpa [this] using hv

/-- `truncate` preserves the array invariant. -/
theorem Vec.truncate_inv (v : Vec α) (n : Nat) (hv : v.Inv) : (v.truncate n).Inv := by
  show (v.data.take n).length ≤ v.cap
  rw [List.length_take]
  exact le_trans (Nat.min_le_right _ _) hv

/-- `resize` preserves the array invariant. -/
theorem Vec.resize_inv (v : Vec α) (n : Nat) (x : α) (hv : v.Inv) :
    ((v.resize n x).1).Inv := by
  unfold Vec.resize
  by_cases hl : v.len < n
  · rw [if_pos hl]; exact v.extend_with_inv _ x hv
  · rw [if_neg hl]; exact v.truncate_inv n hv

/-- `resize_with` preserves the array invariant. -/
theorem Vec.resize_with_inv (v : Vec α) (n : Nat) (f : Nat → α) (hv : v.Inv) :
    ((v.resize_with n f).1).Inv := by
  have hres := v.tryReserve_contract (n - v.len)
  unfold Vec.resize_with
  by_cases hl : v.len < n
  · rw [if_pos hl]
    cases hq : v.tryReserve (n - v.len) with
    | mk v' o =>
      simp only [hq] at hres
      cases o with
      | none =>
        obtain ⟨hc1, _⟩ := hres.2.2.1 rfl
        show (v'.data ++ _).length ≤ v'.cap
        rw [List.length_append, hres.1, List.length_map, List.length_range]
        omega
      | some e =>
        have : v' = v := (hres.2.2.2 e rfl).1
        simpa [this] using hv
  · rw [if_neg hl]; exact v.truncate_inv n hv

/-- `extend` preserves the array invariant. -/
theorem Vec.extend_inv (v : Vec α) (it : HintedIter α) (hv : v.Inv) :
    ((v.extend it).1).Inv := by
  have hres := v.tryReserve_contract it.lowerBound
  unfold Vec.extend
  cases hq : v.tryReserve it.lowerBound with
  | mk v' o =>
    simp only [hq] at hres
    cases o with
    | none =>
      obtain ⟨hc1, _⟩ := hres.2.2.1 rfl
      apply Vec.pushAll_inv
      show (v'.data ++ it.items.take it.lowerBound).length ≤ v'.cap
      rw [List.length_append, hres.1, List.length_take]
      have := Nat.min_le_left it.lowerBound it.items.length
      omega
    | some e =>
      have : v' = v := (hres.2.2.2 e rfl).1
      simpa [this] using hv

/-- Single-step correspondence: under an allocator that never refuses,
one queue operation tracks the list-based reference model. -/
theorem dequeStep_refines [Inhabited α] (d : VecDeque α) (op : DOp α)
    (hInv : d.Inv) (hA : ∀ n, d.alloc.canAlloc n = true) :
    Option.map VecDeque.toList (dequeStep d op) = listStep d.toList op ∧
    (∀ d', dequeStep d op = some d' → d'.Inv ∧ d'.alloc = d.alloc) := by
  cases op with
  | pushF x =>
    have hok := d.push_front_unlimited x hA
    obtain ⟨h1, h2, h3, _⟩ := (d.push_front_spec x).1 hok
    exact ⟨by simp [dequeStep, listStep, h1],
      fun d' hd' => by
        simp only [dequeStep, Option.some.injEq] at hd'
        subst hd'
        exact ⟨h2, h3⟩⟩
  | pushB x =>
    have hok := d.push_back_unlimited x hA
    obtain ⟨h1, h2, h3, _⟩ := (d.push_back_spec x hInv).1 hok
    exact ⟨by simp [dequeStep, listStep, h1],
      fun d' hd' => by
        simp only [dequeStep, Option.some.injEq] at hd'
        subst hd'
        exact ⟨h2, h3⟩⟩
  | popF =>
    obtain ⟨_, h1⟩ := d.pop_front_toList hInv
    obtain ⟨h2, h3⟩ := d.pop_front_inv hInv
    exact ⟨by simp [dequeStep, listStep, h1],
      fun d' hd' => by
        simp only [dequeStep, Option.some.injEq] at hd'
        subst hd'
        exact ⟨h2, h3⟩⟩
  | popB =>
    obtain ⟨_, h1⟩ := d.pop_back_toList
    obtain ⟨h2, h3⟩ := d.pop_back_inv hInv
    exact ⟨by simp [dequeStep, listStep, h1],
      fun d' hd' => by
        simp only [dequeStep, Option.some.injEq] at hd'
        subst hd'
        exact ⟨h2, h3⟩⟩
  | ins i x =>
    have hok := d.tryReserve_unlimited 1 hA
    have hins := d.insert_spec i x
    by_cases hi : i ≤ d.len
    · obtain ⟨d', hd'eq, htl, hinv', hall, _⟩ := hins.2.1 hok hi
      have hmodel : listStep d.toList (DOp.ins i x)
          = some (d.toList.take i ++ x :: d.toList.drop i) := by
        simp only [listStep]
        rw [if_pos (by rw [VecDeque.toList_length]; omega)]
      refine ⟨?_, fun d'' hd'' => ?_⟩
      · simp [dequeStep, hd'eq, hmodel, htl]
      · simp only [dequeStep, hd'eq, Option.map_some', Option.some.injEq] at hd''
        subst hd''
        exact ⟨hinv', hall⟩
    · have hnone := hins.2.2 hok (by omega)
      have hmodel : listStep d.toList (DOp.ins i x) = none := by
        simp only [listStep]
        rw [if_neg (by rw [VecDeque.toList_length]; omega)]
      refine ⟨?_, fun d'' hd'' => ?_⟩
      · simp [dequeStep, hnone, hmodel]
      · simp [dequeStep, hnone] at hd''
  | rem i =>
    obtain ⟨_, h1, h2, h3, _⟩ := d.remove_spec i hInv
    exact ⟨by simp [dequeStep, listStep, h1],
      fun d' hd' => by
        simp only [dequeStep, Option.some.injEq] at hd'
        subst hd'
        exact ⟨h2, h3⟩⟩

/-- Whole-run correspondence with the list model. -/
theorem dequeRun_refines [Inhabited α] (ops : List (DOp α)) (d : VecDeque α)
    (hInv : d.Inv) (hA : ∀ n, d.alloc.canAlloc n = true) :
    Option.map VecDeque.toList (dequeRun d ops) = listRun d.toList ops := by
  induction ops generalizing d with
  | nil => rfl
  | cons op ops ih =>
    obtain ⟨h1, h2⟩ := dequeStep_refines d op hInv hA
    unfold dequeRun listRun
    cases hq : dequeStep d op with
    | none =>
      rw [hq] at h1
      simp only [Option.map_none'] at h1
      rw [← h1]
      rfl
    | some d' =>
      rw [hq] at h1
      simp only [Option.map_some'] at h1
      rw [← h1]
      obtain ⟨hinv', hall⟩ := h2 d' hq
      exact ih d' hinv' (by rw [hall]; exact hA)

/-- C5: under an allocator that never refuses, every finite sequence of
push_front/push_back/pop_front/pop_back/insert/remove operations leaves
the queue's logical order equal to that of the list-based reference
model (and hence so after each prefix of the sequence); the pops and
`remove` also return exactly the list-model values. -/
theorem deque_refines_list_model [Inhabited α] (d : VecDeque α) (ops : List (DOp α))
    (i : Nat) (hInv : d.Inv) (hA : ∀ n, d.alloc.canAlloc n = true) :
    Option.map VecDeque.toList (dequeRun d ops) = listRun d.toList ops ∧
    d.pop_front.1 = d.toList.head? ∧
    d.pop_back.1 = d.toList.getLast? ∧
    (d.remove i).1 = d.toList[i]? ∧
    d.get i = d.toList[i]? :=
  ⟨dequeRun_refines ops d hInv hA,
   (d.pop_front_toList hInv).1,
   (d.pop_back_toList).1,
   (d.remove_spec i hInv).1,
   d.get_spec i⟩

theorem deque_refines_list_model_witness :
    Option.map VecDeque.toList
        (dequeRun (VecDeque.new_in Alloc.unlimited : VecDeque Nat)
          [DOp.pushB 1, DOp.pushF 2, DOp.pushB 3, DOp.ins 1 9, DOp.popB, DOp.rem 0,
            DOp.popF])
      = listRun [] [DOp.pushB 1, DOp.pushF 2, DOp.pushB 3, DOp.ins 1 9, DOp.popB,
          DOp.rem 0, DOp.popF] ∧
    ((VecDeque.new_in Alloc.unlimited : VecDeque Nat).pop_front.1 = ([] : List Nat).head?) :=
  ⟨(deque_refines_list_model (VecDeque.new_in Alloc.unlimited : VecDeque Nat)
      [DOp.pushB 1, DOp.pushF 2, DOp.pushB 3, DOp.ins 1 9, DOp.popB, DOp.rem 0, DOp.popF]
      0 (by exact ⟨Nat.le_refl 0, Or.inr ⟨rfl, rfl⟩⟩) (fun _ => rfl)).1,
   (deque_refines_list_model (VecDeque.new_in Alloc.unlimited : VecDeque Nat)
      [] 0 (by exact ⟨Nat.le_refl 0, Or.inr ⟨rfl, rfl⟩⟩) (fun _ => rfl)).2.1⟩

/-- `with_capacity_in` yields an invariant-satisfying array. -/
theorem Vec.with_capacity_inv (n : Nat) (a : Alloc) (c : Vec α)
    (h : Vec.with_capacity_in n a = .ok c) : c.Inv := by
  unfold Vec.with_capacity_in at h
  by_cases h0 : n = 0
  · rw [if_pos h0] at h
    injection h with h
    subst h
    exact Nat.le_refl 0
  · rw [if_neg h0] at h
    by_cases hA : a.canAlloc n = true
    · rw [if_pos hA] at h
      injection h with h
      subst h
      exact Nat.zero_le n
    · rw [if_neg hA] at h
      cases h

/-- `try_reserve` preserves the array invariant in both outcomes. -/
theorem Vec.tryReserve_inv (v : Vec α) (n : Nat) (hv : v.Inv) :
    ((v.tryReserve n).1).Inv := by
  have hres := v.tryReserve_contract n
  rcases hq : (v.tryReserve n).2 with _ | e
  · obtain ⟨_, hc2⟩ := hres.2.2.1 hq
    unfold Vec.Inv
    rw [hres.1]
    exact le_trans hv hc2
  · rw [(hres.2.2.2 e hq).1]
    exact hv

/-- `push` preserves the array invariant in both outcomes. -/
theorem Vec.push_inv (v : Vec α) (x : α) (hv : v.Inv) : ((v.push x).1).Inv := by
  have hps := v.push_spec x
  rcases hq : (v.push x).2 with _ | e
  · obtain ⟨hd, _, hc, _⟩ := hps.2.1 hq
    unfold Vec.Inv
    rw [hd]
    simpa using hc
  · rw [(hps.2.2 e hq).1]
    exact hv

/-- `push_front` preserves the deque invariant in both outcomes. -/
theorem VecDeque.push_front_inv [Inhabited α] (d : VecDeque α) (x : α) (hd : d.Inv) :
    ((d.push_front x).1).Inv := by
  have hs := d.push_front_spec x
  rcases hq : (d.push_front x).2 with _ | e
  · exact ((hs.1 hq).2.1)
  · rw [hs.2 e hq]
    exact hd

/-- `push_back` preserves the deque invariant in both outcomes. -/
theorem VecDeque.push_back_inv [Inhabited α] (d : VecDeque α) (x : α) (hd : d.Inv) :
    ((d.push_back x).1).Inv := by
  have hs := d.push_back_spec x hd
  rcases hq : (d.push_back x).2 with _ | e
  · exact ((hs.1 hq).2.1)
  · rw [hs.2 e hq]
    exact hd

/-- Any state produced by `insert` satisfies the deque invariant. -/
theorem VecDeque.insert_inv [Inhabited α] (d : VecDeque α) (i : Nat) (x : α)
    (hd : d.Inv) (r : VecDeque α × Option TryReserveError)
    (h : d.insert i x = some r) : r.1.Inv := by
  have hins := d.insert_spec i x
  rcases hq : (d.tryReserve 1).2 with _ | e
  · by_cases hi : i ≤ d.len
    · obtain ⟨d', hd'eq, _, hinv', _, _⟩ := hins.2.1 hq hi
      rw [hd'eq] at h
      injection h with h
      subst h
      exact hinv'
    · rw [hins.2.2 hq (by omega)] at h
      cases h
  · rw [hins.1 e hq] at h
    injection h with h
    subst h
    exact hd

/-- Both queues produced by `append` satisfy the invariant. -/
theorem VecDeque.append_inv [Inhabited α] (self other : VecDeque α)
    (hs : self.Inv) (ho : other.Inv) :
    ((self.append other).1.1).Inv ∧ ((self.append other).1.2).Inv := by
  have hap := VecDeque.append_spec self other hs ho
  rcases hq : (self.append other).2 with _ | e
  · obtain ⟨_, _, _, h4, h5, _⟩ := hap.1 hq
    exact ⟨h4, h5⟩
  · rw [hap.2 e hq]
    exact ⟨hs, ho⟩

/-- Specification of `VecDeque::drain`: a valid range yields exactly the
elements at logical indices `i..j`, the remainder closes the gap (the
length drops by exactly the drained count, capacity kept), the state
satisfies the invariant; an invalid range is a programming-error
fault. -/
theorem VecDeque.drain_spec [Inhabited α] (d : VecDeque α) (i j : Nat) (hInv : d.Inv) :
    (i ≤ j → j ≤ d.len →
      ∃ r, d.drain i j = some r ∧
        r.1 = (d.toList.drop i).take (j - i) ∧
        r.2.toList = d.toList.take i ++ d.toList.drop j ∧
        r.2.len = d.len - (j - i) ∧
        r.2.buf.length = d.buf.length ∧
        r.2.Inv ∧ r.2.alloc = d.alloc) ∧
    (¬ (i ≤ j ∧ j ≤ d.len) → d.drain i j = none) := by
  rcases hInv with ⟨h1, _⟩
  unfold VecDeque.drain
  refine ⟨fun hij hjl => ?_, fun hbad => by rw [if_neg hbad]⟩
  rw [if_pos ⟨hij, hjl⟩]
  have hlen : (d.toList.take i ++ d.toList.drop j).length = d.len - (j - i) := by
    simp only [List.length_append, List.length_take, List.length_drop,
      VecDeque.toList_length]
    omega
  refine ⟨_, rfl, rfl, ?_, rfl, ?_, ?_, rfl⟩
  · exact toList_mkContig' _ _ _ _ hlen.symm
  · show (_ ++ List.replicate _ _).length = d.buf.length
    simp only [List.length_append, List.length_replicate, List.length_take,
      List.length_drop, VecDeque.toList_length]
    omega
  · constructor
    · show d.len - (j - i) ≤ (_ ++ List.replicate _ _).length
      simp only [List.length_append, List.length_replicate, List.length_take,
        List.length_drop, VecDeque.toList_length]
      omega
    · rcases Nat.eq_zero_or_pos d.buf.length with h0 | hc
      · right
        refine ⟨?_, rfl⟩
        show (_ ++ List.replicate _ _).length = 0
        simp only [List.length_append, List.length_replicate, List.length_take,
          List.length_drop, VecDeque.toList_length]
        omega
      · left
        show 0 < (_ ++ List.replicate _ _).length
        simp only [List.length_append, List.length_replicate, List.length_take,
          List.length_drop, VecDeque.toList_length]
        omega

/-- Any state produced by `drain` satisfies the deque invariant. -/
theorem VecDeque.drain_inv [Inhabited α] (d : VecDeque α) (i j : Nat) (hInv : d.Inv)
    (r : List α × VecDeque α) (h : d.drain i j = some r) : r.2.Inv := by
  have hs := d.drain_spec i j hInv
  by_cases hij : i ≤ j ∧ j ≤ d.len
  · obtain ⟨r', hr', _, _, _, _, hinv', _⟩ := hs.1 hij.1 hij.2
    rw [hr'] at h
    injection h with h
    subst h
    exact hinv'
  · rw [hs.2 hij] at h
    cases h

/-- The `From<Vec>` conversion keeps the array's elements as the logical
window and its capacity as the ring's, and satisfies the invariant. -/
theorem VecDeque.ofVec_spec [Inhabited α] (v : Vec α) (hv : v.Inv) :
    (VecDeque.ofVec v).toList = v.data ∧
    (VecDeque.ofVec v).len = v.data.length ∧
    (VecDeque.ofVec v).buf.length = v.cap ∧
    (VecDeque.ofVec v).alloc = v.alloc ∧
    (VecDeque.ofVec v).Inv := by
  refine ⟨toList_mkContig _ _ _, rfl, ?_, rfl, ?_, ?_⟩
  · show (v.data ++ List.replicate _ _).length = v.cap
    simp only [List.length_append, List.length_replicate]
    have hvc : v.data.length ≤ v.cap := hv
    omega
  · show v.data.length ≤ (v.data ++ List.replicate _ _).length
    simp only [List.length_append, List.length_replicate]
    omega
  · rcases Nat.eq_zero_or_pos v.cap with h0 | hc
    · right
      refine ⟨?_, rfl⟩
      show (v.data ++ List.replicate _ _).length = 0
      simp only [List.length_append, List.length_replicate]
      have : v.data.length ≤ v.cap := hv
      omega
    · left
      show 0 < (v.data ++ List.replicate _ _).length
      simp only [List.length_append, List.length_replicate]
      omega

/-- C9: the structural invariant `length ≤ capacity` holds for freshly
constructed arrays and queues (also via the array-to-queue conversion)
and is preserved by every public mutating operation of both containers —
reserve, the pushes, the extend and resize variants, truncate, clear,
the pops, insert, remove, drain, append, make_contiguous, try_clone and
try_clone_from — whether the operation succeeds or returns an
allocation-failure error. -/
theorem length_le_capacity_invariant {α β : Type} [Inhabited β]
    (a : Alloc) (v w : Vec α) (x : α) (s : List α) (n : Nat) (f : Nat → α)
    (it : HintedIter α) (d other : VecDeque β) (u : Vec β) (y : β) (i j : Nat)
    (hv : v.Inv) (hw : w.Inv) (hd : d.Inv) (ho : other.Inv) (hu : u.Inv) :
    (Vec.new_in a : Vec α).Inv ∧
    (∀ c : Vec α, Vec.with_capacity_in n a = .ok c → c.Inv) ∧
    ((v.tryReserve n).1).Inv ∧
    ((v.push x).1).Inv ∧
    ((v.extend it).1).Inv ∧
    ((v.extend_from_slice s).1).Inv ∧
    ((v.extend_with n x).1).Inv ∧
    (v.truncate n).Inv ∧
    v.clear.Inv ∧
    ((v.resize n x).1).Inv ∧
    ((v.resize_with n f).1).Inv ∧
    (∀ c, v.try_clone = .ok c → c.Inv) ∧
    ((w.try_clone_from v).1).Inv ∧
    (VecDeque.new_in a : VecDeque β).Inv ∧
    (∀ c : VecDeque β, VecDeque.with_capacity_in n a = .ok c → c.Inv) ∧
    ((d.tryReserve n).1).Inv ∧
    ((d.push_front y).1).Inv ∧
    ((d.push_back y).1).Inv ∧
    (d.pop_front.2).Inv ∧
    (d.pop_back.2).Inv ∧
    (∀ r, d.insert i y = some r → r.1.Inv) ∧
    ((d.remove i).2).Inv ∧
    ((d.append other).1.1).Inv ∧
    ((d.append other).1.2).Inv ∧
    (d.make_contiguous.2).Inv ∧
    d.clear.Inv ∧
    (∀ c, d.try_clone = .ok c → c.Inv) ∧
    ((other.try_clone_from d).1).Inv ∧
    (∀ r, d.drain i j = some r → r.2.Inv) ∧
    (VecDeque.ofVec u).Inv := by
  refine ⟨Nat.le_refl 0, fun c hc => Vec.with_capacity_inv n a c hc,
    v.tryReserve_inv n hv, v.push_inv x hv, v.extend_inv it hv,
    v.extend_from_slice_inv s hv, v.extend_with_inv n x hv,
    v.truncate_inv n hv, Nat.zero_le _, v.resize_inv n x hv,
    v.resize_with_inv n f hv, fun c hc => ?_, ?_,
    ⟨Nat.le_refl 0, Or.inr ⟨rfl, rfl⟩⟩,
    fun c hc => ((VecDeque.with_capacity_spec n a).2 c hc).2.2.2.2.2,
    ?_, d.push_front_inv y hd, d.push_back_inv y hd,
    (d.pop_front_inv hd).1, (d.pop_back_inv hd).1,
    fun r hr => d.insert_inv i y hd r hr,
    (d.remove_spec i hd).2.2.1,
    (d.append_inv other hd ho).1, (d.append_inv other hd ho).2,
    (d.make_contiguous_spec.2.2.2.2.2 hd), ⟨Nat.zero_le _, hd.2⟩,
    fun c hc => ?_, ?_,
    fun r hr => d.drain_inv i j hd r hr,
    (VecDeque.ofVec_spec u hu).2.2.2.2⟩
  · obtain ⟨hdat, hcap, _⟩ := (v.try_clone_exact).2 c hc
    unfold Vec.Inv
    rw [hdat, hcap]
  · unfold Vec.try_clone_from
    cases hq : v.try_clone with
    | ok c =>
      obtain ⟨hdat, hcap, _⟩ := (v.try_clone_exact).2 c hq
      show c.Inv
      unfold Vec.Inv
      rw [hdat, hcap]
    | error e => exact hw
  · have hres := d.tryReserve_spec n
    rcases hq : (d.tryReserve n).2 with _ | e
    · exact (hres.1 hq).2.2.2.2.2 hd
    · rw [hres.2 e hq]
      exact hd
  · exact ((d.try_clone_spec).2 c hc).2.2.2.2.2
  ·
    unfold VecDeque.try_clone_from
    cases hq : d.try_clone with
    | ok c =>
      show c.Inv
      exact ((d.try_clone_spec).2 c hq).2.2.2.2.2
    | error e => exact ho

theorem length_le_capacity_invariant_witness :
    ((Vec.mk [1] 2 Alloc.unlimited : Vec Nat).push 0).1.Inv ∧
    ((VecDeque.mk [1, 2] 0 2 Alloc.unlimited : VecDeque Nat).push_front 0).1.Inv := by
  have h := length_le_capacity_invariant (β := Nat) Alloc.unlimited
    (Vec.mk [1] 2 Alloc.unlimited) (Vec.mk [1] 2 Alloc.unlimited) 0 [] 1 (fun _ => 0)
    ⟨[], 0⟩ (VecDeque.mk [1, 2] 0 2 Alloc.unlimited) (VecDeque.mk [1, 2] 0 2 Alloc.unlimited)
    (Vec.mk [2] 2 Alloc.unlimited) 0 0 1 (Nat.le_succ 1) (Nat.le_succ 1)
    ⟨Nat.le_refl 2, Or.inl (by decide)⟩ ⟨Nat.le_refl 2, Or.inl (by decide)⟩
    (Nat.le_succ 1)
  exact ⟨h.2.2.2.1, h.2.2.2.2.2.2.2.2.2.2.2.2.2.2.2.2.1⟩
